import Mathlib

/-!
# CloudForest: FeatureMatrix

A shallow embedding of `featurematrix.go` and `featureinterfaces.go`:
`BestSplitter`, `AddContrasts`, `ContrastAll`, `ImputeMissing`, `ParseAFM`,
`ParseFeature`.

Conventions of the embedding.
* A Go panic (index out of range, slice bounds out of range, nil dereference,
  `rand.Intn` of a non-positive bound) is the result `none`.
* `float64` values are only compared by the code below, so they are modelled by
  `Float64`: NaN, the two infinities, or a finite value carried as a rational.
* Methods of the interfaces `Feature` and `Target` whose implementations live in
  other files are taken as parameters (`SearchMethods`, `ColumnMethods`).
* Memory reached through pointers (`&cases`, `allocs`) is passed explicitly and
  handed back by every call that may write to it.
* The global `math/rand` source is an explicit state (`Rand`).
-/

namespace CloudForest

/-! ## float64, as far as it is compared -/

/-- A `float64` value up to what ordered comparison can observe. -/
inductive Float64 where
  | nan
  | negInf
  | fin (q : ℚ)
  | posInf
  deriving DecidableEq

namespace Float64

/-- Go `a > b` on float64: false as soon as one operand is NaN. -/
def gt : Float64 → Float64 → Bool
  | nan, _ => false
  | _, nan => false
  | negInf, _ => false
  | fin _, negInf => true
  | fin a, fin b => decide (b < a)
  | fin _, posInf => false
  | posInf, posInf => false
  | posInf, _ => true

/-- Go `a >= b` on float64: false as soon as one operand is NaN. -/
def ge : Float64 → Float64 → Bool
  | nan, _ => false
  | _, nan => false
  | negInf, negInf => true
  | negInf, _ => false
  | fin _, negInf => true
  | fin a, fin b => decide (b ≤ a)
  | fin _, posInf => false
  | posInf, _ => true

end Float64

/-- The constant `minImp = 0.0` of featureinterfaces.go. -/
def minImp : Float64 := Float64.fin 0

/-! ## Slices -/

/-- Go `xs[i]` for an `int` index: panics (here `none`) unless `0 ≤ i < len(xs)`. -/
def index? {α : Type} (xs : List α) (i : Int) : Option α :=
  if 0 ≤ i then xs[i.toNat]? else none

/-! ## FeatureMatrix -/

/-- The struct `FeatureMatrix`. `Feat` is the type of the values stored in the
`[]Feature` slice. The Go map `map[string]int` is either nil (`none`) or a partial
function: a nil map can be read, and a write to it panics. -/
structure FeatureMatrix (Feat : Type) where
  Data : List Feat
  Map : Option (String → Option Int)
  CaseLabels : List String

/-- The scratch structure `BestSplitAllocs`. Its declaration is in another file;
BestSplitter reads only the field `Counter`, the remaining fields are `Rest`. -/
structure BestSplitAllocs (R : Type) where
  Counter : List Int
  Rest : R

/-- The interface methods BestSplitter calls, with the arity of the call sites in
featurematrix.go. `Option Split` stands for the `interface{}` carrying an encoded
split (`none` is the nil interface). Arguments passed by pointer (`&cases`,
`allocs`, `allocs.Counter`) are returned with their contents after the call. -/
structure SearchMethods (Feat Tgt R Split Splitter : Type) where
  /-- `target.Impurity(&cases, allocs.Counter)` -/
  Impurity : Tgt → List Int → List Int → Float64 × List Int × List Int
  /-- `(*f).BestSplit(target, &cases, parentImp, allocs)` -/
  BestSplit : Feat → Tgt → List Int → Float64 → BestSplitAllocs R →
    (Option Split × Float64) × List Int × BestSplitAllocs R
  /-- `(*bestF).DecodeSplit(bestSplit)`, a decoded Splitter -/
  DecodeSplit : Feat → Option Split → Splitter

/-- The local variables of BestSplitter that the loop over the candidates
updates, together with the memory behind `&cases` and `allocs`. `bestF` is a
pointer into `fm.Data`: the index of the slot, or `none` for nil. -/
structure LoopState (R Split : Type) where
  cases : List Int
  allocs : BestSplitAllocs R
  bestF : Option Int
  impurityDecrease : Float64
  bestSplit : Option Split

/-- The body of `for _, i := range candidates` in BestSplitter, iterated. -/
def BestSplitter.loop {Feat Tgt R Split Splitter : Type}
    (m : SearchMethods Feat Tgt R Split Splitter) (fm : FeatureMatrix Feat)
    (target : Tgt) (parentImp : Float64) :
    List Int → LoopState R Split → Option (LoopState R Split)
  | [], st => some st
  | i :: rest, st =>
    match index? fm.Data i with
    | none => none
    | some f =>
      let r := m.BestSplit f target st.cases parentImp st.allocs
      let split := r.1.1
      let inerImp := r.1.2
      if inerImp.gt minImp && inerImp.gt st.impurityDecrease then
        BestSplitter.loop m fm target parentImp rest
          { cases := r.2.1, allocs := r.2.2, bestF := some i,
            impurityDecrease := inerImp, bestSplit := split }
      else
        BestSplitter.loop m fm target parentImp rest
          { st with cases := r.2.1, allocs := r.2.2 }

/-- The state in which BestSplitter enters its loop: `impurityDecrease = minImp`,
nil `bestF` and `bestSplit`, and the parent impurity already computed. -/
def BestSplitter.init {Feat Tgt R Split Splitter : Type}
    (m : SearchMethods Feat Tgt R Split Splitter)
    (target : Tgt) (cases : List Int) (allocs : BestSplitAllocs R) :
    Float64 × LoopState R Split :=
  let p := m.Impurity target cases allocs.Counter
  (p.1, { cases := p.2.1, allocs := { allocs with Counter := p.2.2 }, bestF := none,
          impurityDecrease := minImp, bestSplit := none })

/-- `FeatureMatrix.BestSplitter`: the pair `(s, impurityDecrease)`, with `s = none`
for a nil splitter; `none` overall when the call panics. -/
def BestSplitter {Feat Tgt R Split Splitter : Type}
    (m : SearchMethods Feat Tgt R Split Splitter) (fm : FeatureMatrix Feat)
    (target : Tgt) (cases : List Int) (candidates : List Int)
    (allocs : BestSplitAllocs R) : Option (Option Splitter × Float64) :=
  let s0 := BestSplitter.init m target cases allocs
  match BestSplitter.loop m fm target s0.1 candidates s0.2 with
  | none => none
  | some st =>
    if st.impurityDecrease.gt minImp then
      match st.bestF with
      | none => none
      | some i =>
        match index? fm.Data i with
        | none => none
        | some f => some (some (m.DecodeSplit f st.bestSplit), st.impurityDecrease)
    else some (none, st.impurityDecrease)

/-- One call of BestSplit as the loop makes it: the candidate column index, and
the encoded split and impurity decrease the column returned. -/
structure Eval (Split : Type) where
  column : Int
  split : Option Split
  inerImp : Float64

/-- The BestSplit calls made for a candidate list, in order, each on the memory
left by the previous one. -/
def BestSplitter.evalsFrom {Feat Tgt R Split Splitter : Type}
    (m : SearchMethods Feat Tgt R Split Splitter) (fm : FeatureMatrix Feat)
    (target : Tgt) (parentImp : Float64) :
    List Int → List Int → BestSplitAllocs R → Option (List (Eval Split))
  | [], _, _ => some []
  | i :: rest, cases, allocs =>
    match index? fm.Data i with
    | none => none
    | some f =>
      let r := m.BestSplit f target cases parentImp allocs
      match BestSplitter.evalsFrom m fm target parentImp rest r.2.1 r.2.2 with
      | none => none
      | some tr => some ({ column := i, split := r.1.1, inerImp := r.1.2 } :: tr)

/-- The BestSplit calls of one BestSplitter call: parent impurity first, then
every candidate in list order. -/
def BestSplitter.evals {Feat Tgt R Split Splitter : Type}
    (m : SearchMethods Feat Tgt R Split Splitter) (fm : FeatureMatrix Feat)
    (target : Tgt) (cases : List Int) (candidates : List Int)
    (allocs : BestSplitAllocs R) : Option (List (Eval Split)) :=
  let s0 : Float64 × LoopState R Split := BestSplitter.init m target cases allocs
  BestSplitter.evalsFrom m fm target s0.1 candidates s0.2.cases s0.2.allocs

/-! ## Contrast features -/

/-- The global `math/rand` source: an arbitrary stream of raw draws and the
number of draws consumed so far. -/
structure Rand where
  raw : Nat → Nat
  pos : Nat

/-- `rand.Intn(n)`: panics when `n ≤ 0`, otherwise a value in `[0, n)`. -/
def Rand.Intn (g : Rand) (n : Int) : Option (Int × Rand) :=
  if n ≤ 0 then none
  else some ((g.raw g.pos : Int) % n, { g with pos := g.pos + 1 })

/-- The methods of the interface `Feature` that AddContrasts and ContrastAll
call. `ShuffledCopy` draws from the global random source. -/
structure ColumnMethods (Feat : Type) where
  /-- `orig.ShuffledCopy()` -/
  ShuffledCopy : Feat → Rand → Feat × Rand
  /-- `fake.GetName()` -/
  GetName : Feat → String

/-- Go `m[k] = v` on a `map[string]int` that is not nil. -/
def mapSet (m : String → Option Int) (k : String) (v : Int) : String → Option Int :=
  fun s => if s = k then some v else m s

/-- Go `v, ok := m[k]` on a `map[string]int`: a nil map has no entry. -/
def mapGet (m : Option (String → Option Int)) (k : String) : Option Int :=
  match m with
  | none => none
  | some lookup => lookup k

/-- The two statements `fm.Map[fake.GetName()] = len(fm.Data)` and
`fm.Data = append(fm.Data, fake)` that end both contrast loops. The first one
panics when `fm.Map` is nil (assignment to entry in nil map). -/
def appendFake {Feat : Type} (m : ColumnMethods Feat) (fm : FeatureMatrix Feat)
    (fake : Feat) : Option (FeatureMatrix Feat) :=
  match fm.Map with
  | none => none
  | some lookup =>
    some { fm with
           Map := some (mapSet lookup (m.GetName fake) (fm.Data.length : Int))
           Data := fm.Data ++ [fake] }

/-- The loop `for i := 0; i < n; i++` of AddContrasts; the first argument is the
number of iterations left. -/
def AddContrasts.loop {Feat : Type} (m : ColumnMethods Feat) (nrealfeatures : Int) :
    Nat → FeatureMatrix Feat → Rand → Option (FeatureMatrix Feat × Rand)
  | 0, fm, g => some (fm, g)
  | k + 1, fm, g =>
    match g.Intn nrealfeatures with
    | none => none
    | some (r, g1) =>
      match index? fm.Data r with
      | none => none
      | some orig =>
        let c := m.ShuffledCopy orig g1
        match appendFake m fm c.1 with
        | none => none
        | some fm1 => AddContrasts.loop m nrealfeatures k fm1 c.2

/-- `FeatureMatrix.AddContrasts(n)`: the matrix and the random source after the
call. A non-positive `n` runs the loop zero times. -/
def AddContrasts {Feat : Type} (m : ColumnMethods Feat) (fm : FeatureMatrix Feat)
    (n : Int) (g : Rand) : Option (FeatureMatrix Feat × Rand) :=
  AddContrasts.loop m (fm.Data.length : Int) n.toNat fm g

/-- The loop `for i := 0; i < nrealfeatures; i++` of ContrastAll; the first
argument is the number of iterations left, the second the loop counter `i`. -/
def ContrastAll.loop {Feat : Type} (m : ColumnMethods Feat) :
    Nat → Nat → FeatureMatrix Feat → Rand → Option (FeatureMatrix Feat × Rand)
  | 0, _, fm, g => some (fm, g)
  | k + 1, i, fm, g =>
    match fm.Data[i]? with
    | none => none
    | some orig =>
      let c := m.ShuffledCopy orig g
      match appendFake m fm c.1 with
      | none => none
      | some fm1 => ContrastAll.loop m k (i + 1) fm1 c.2

/-- `FeatureMatrix.ContrastAll()`. -/
def ContrastAll {Feat : Type} (m : ColumnMethods Feat) (fm : FeatureMatrix Feat)
    (g : Rand) : Option (FeatureMatrix Feat × Rand) :=
  ContrastAll.loop m fm.Data.length 0 fm g

/-- The dataset invariant of the name index: the name of the column at every
position is mapped to that position. -/
def MapInvariant {Feat : Type} (m : ColumnMethods Feat) (fm : FeatureMatrix Feat) : Prop :=
  ∀ (i : Nat) (f : Feat), fm.Data[i]? = some f →
    mapGet fm.Map (m.GetName f) = some (i : Int)

/-- The name index maps a name to the position of the last column bearing it:
every column that no later column shares its name with is found at its position. -/
def LastWins {Feat : Type} (m : ColumnMethods Feat) (fm : FeatureMatrix Feat) : Prop :=
  ∀ (i : Nat) (f : Feat), fm.Data[i]? = some f →
    (∀ (j : Nat) (f2 : Feat), i < j → fm.Data[j]? = some f2 → m.GetName f2 ≠ m.GetName f) →
    mapGet fm.Map (m.GetName f) = some (i : Int)

/-! ## Dense columns and the AFM reader -/

/-- The struct `CatMap` as ParseFeature builds it: `CatMap{map, back}`. -/
structure CatMap where
  Map : String → Option Int
  Back : List String

/-- The struct `DenseNumFeature`, fields in the order of the literal in
ParseFeature. -/
structure DenseNumFeature where
  NumData : List Float64
  Missing : List Bool
  Name : String

/-- The struct `DenseCatFeature`, fields in the order of the literal in
ParseFeature; the fifth field is a boolean that ParseFeature sets to false. -/
structure DenseCatFeature where
  Cats : CatMap
  CatData : List Int
  Missing : List Bool
  Name : String
  Flag : Bool

/-- The values the interface `Feature` holds in this file. -/
inductive Feature where
  | num (f : DenseNumFeature)
  | cat (f : DenseCatFeature)

/-- The library functions ParseFeature calls. `ParseFloat s` is `none` when
`strconv.ParseFloat(s, 64)` returns a non-nil error. -/
structure StdLib where
  ParseFloat : String → Option Float64
  ToLower : String → String

/-- Modelled from the spec: `CatMap.CatToNum`, whose code is in another file.
Codes are dense, start at 0 and are assigned in first-seen order; the inverse
list's index equals the code. -/
def CatMap.CatToNum (cm : CatMap) (value : String) : Int × CatMap :=
  match cm.Map value with
  | some c => (c, cm)
  | none =>
    ((cm.Back.length : Int),
      { Map := mapSet cm.Map value (cm.Back.length : Int), Back := cm.Back ++ [value] })

/-- The loop over `record[1:]` in the `"N:"` case of ParseFeature. -/
def ParseFeature.numLoop (lib : StdLib) : List String → DenseNumFeature → DenseNumFeature
  | [], f => f
  | s :: rest, f =>
    match lib.ParseFloat s with
    | none =>
      ParseFeature.numLoop lib rest
        { f with NumData := f.NumData ++ [Float64.fin 0], Missing := f.Missing ++ [true] }
    | some v =>
      ParseFeature.numLoop lib rest
        { f with NumData := f.NumData ++ [v], Missing := f.Missing ++ [false] }

/-- The loop over `record[1:]` in the default case of ParseFeature. -/
def ParseFeature.catLoop (lib : StdLib) : List String → DenseCatFeature → DenseCatFeature
  | [], f => f
  | v :: rest, f =>
    let norm := lib.ToLower v
    if norm = "?" ∨ norm = "nan" ∨ norm = "na" ∨ norm = "null" then
      ParseFeature.catLoop lib rest
        { f with CatData := f.CatData ++ [0], Missing := f.Missing ++ [true] }
    else
      let c := f.Cats.CatToNum v
      ParseFeature.catLoop lib rest
        { f with Cats := c.2, CatData := f.CatData ++ [c.1], Missing := f.Missing ++ [false] }

/-- `ParseFeature(record)`. `record[0]` panics on an empty record and
`record[0][0:2]` panics when the first field has fewer than two bytes. -/
def ParseFeature (lib : StdLib) (record : List String) : Option Feature :=
  match record with
  | [] => none
  | name :: fields =>
    if name.utf8ByteSize < 2 then none
    else if name.data.take 2 = ['N', ':'] then
      some (Feature.num
        (ParseFeature.numLoop lib fields { NumData := [], Missing := [], Name := name }))
    else
      some (Feature.cat
        (ParseFeature.catLoop lib fields
          { Cats := { Map := fun _ => none, Back := [] }, CatData := [], Missing := [],
            Name := name, Flag := false }))

/-- What one call of `tsv.Read()` hands back. A record read without error has at
least one field (encoding/csv skips empty lines); end of input comes with a nil
record; any other error comes with whatever record the reader returns, possibly
nil. -/
inductive ReadResult where
  | ok (first : String) (rest : List String)
  | eof
  | fail (record : List String)

/-- The record returned by a read, nil being the empty list. -/
def ReadResult.record : ReadResult → List String
  | ReadResult.ok first rest => first :: rest
  | ReadResult.eof => []
  | ReadResult.fail record => record

/-- `tsv.Read()` on a reader given by the results it has still to deliver; an
exhausted reader reports end of input. -/
def Read : List ReadResult → ReadResult × List ReadResult
  | [] => (ReadResult.eof, [])
  | r :: tsv => (r, tsv)

/-- Go `headers[1:]`: panics when the slice is empty or nil. -/
def sliceFrom1 (headers : List String) : Option (List String) :=
  if 1 ≤ headers.length then some (headers.drop 1) else none

/-- The `for` loop of ParseAFM: reads records until end of input or an error. -/
def ParseAFM.loop (lib : StdLib) :
    List ReadResult → List Feature → (String → Option Int) → Int →
      Option (List Feature × (String → Option Int))
  | [], data, lookup, _ => some (data, lookup)
  | ReadResult.eof :: _, data, lookup, _ => some (data, lookup)
  | ReadResult.fail _ :: _, data, lookup, _ => some (data, lookup)
  | ReadResult.ok first rest :: tsv, data, lookup, count =>
    match ParseFeature lib (first :: rest) with
    | none => none
    | some f => ParseAFM.loop lib tsv (data ++ [f]) (mapSet lookup first count) (count + 1)

/-- `ParseAFM(input)`, the input being the csv reader built on it. -/
def ParseAFM (lib : StdLib) (input : List ReadResult) : Option (FeatureMatrix Feature) :=
  let r := Read input
  let headers := (r.1).record
  match r.1 with
  | ReadResult.eof =>
    (sliceFrom1 headers).map
      (fun h => { Data := [], Map := some (fun _ => none), CaseLabels := h })
  | ReadResult.fail _ =>
    (sliceFrom1 headers).map
      (fun h => { Data := [], Map := some (fun _ => none), CaseLabels := h })
  | ReadResult.ok _ _ =>
    match sliceFrom1 headers with
    | none => none
    | some headers1 =>
      match ParseAFM.loop lib r.2 [] (fun _ => none) 0 with
      | none => none
      | some out => some { Data := out.1, Map := some out.2, CaseLabels := headers1 }

/-- The data records a reader delivers before its first end of input or error. -/
def recordsRead : List ReadResult → List (List String)
  | ReadResult.ok first rest :: tsv => (first :: rest) :: recordsRead tsv
  | _ => []

/-- Modelled from the spec: the shuffle behind `ShuffledCopy`, whose code is in
another file: a true shuffle of the existing entries. Each step draws a position
among the entries left and moves that entry to the output. The first argument is
the number of entries left. -/
def shuffleList {α : Type} : Nat → List α → Rand → List α × Rand
  | 0, xs, g => (xs, g)
  | k + 1, xs, g =>
    match g.Intn (xs.length : Int) with
    | none => (xs, g)
    | some (i, g1) =>
      match xs[i.toNat]? with
      | none => (xs, g1)
      | some x =>
        let r := shuffleList k (xs.eraseIdx i.toNat) g1
        (x :: r.1, r.2)

/-- The cases of a column as pairs of a value and its missing flag. -/
def Feature.rows : Feature → List ((Float64 ⊕ Int) × Bool)
  | Feature.num f => (f.NumData.map Sum.inl).zip f.Missing
  | Feature.cat f => (f.CatData.map Sum.inr).zip f.Missing

/-- Modelled from the spec: `GetName`, whose code is in another file: the name
of the column. -/
def Feature.GetName : Feature → String
  | Feature.num f => f.Name
  | Feature.cat f => f.Name

/-- Modelled from the spec: `ShuffledCopy`, whose code is in another file: a copy
of the column in which values and missing flags are shuffled together, named
`featurename:SHUFFLED` as the comment of AddContrasts says. -/
def Feature.ShuffledCopy : Feature → Rand → Feature × Rand
  | Feature.num f, g =>
    let r := shuffleList (f.NumData.zip f.Missing).length (f.NumData.zip f.Missing) g
    (Feature.num { NumData := r.1.unzip.1, Missing := r.1.unzip.2,
                   Name := f.Name ++ ":SHUFFLED" }, r.2)
  | Feature.cat f, g =>
    let r := shuffleList (f.CatData.zip f.Missing).length (f.CatData.zip f.Missing) g
    (Feature.cat { f with CatData := r.1.unzip.1, Missing := r.1.unzip.2,
                          Name := f.Name ++ ":SHUFFLED" }, r.2)

/-- The dense columns as an implementation of the interface methods the contrast
operations call. -/
def denseColumns : ColumnMethods Feature :=
  { ShuffledCopy := Feature.ShuffledCopy, GetName := Feature.GetName }

/-- The test of the default case of ParseFeature on a field `v`: its lower-cased
text is one of `?`, `nan`, `na`, `null`. -/
def catMissing (lib : StdLib) (v : String) : Bool :=
  decide (lib.ToLower v = "?" ∨ lib.ToLower v = "nan" ∨ lib.ToLower v = "na" ∨
    lib.ToLower v = "null")

/-- The encoder after `CatToNum` has been called on each of the given texts, in
order. -/
def CatMap.encodeAll (cm : CatMap) (vs : List String) : CatMap :=
  vs.foldl (fun c v => (c.CatToNum v).2) cm

/-- The number of values a column holds: `len(f.NumData)` or `len(f.CatData)`. -/
def Feature.valueCount : Feature → Nat
  | Feature.num f => f.NumData.length
  | Feature.cat f => f.CatData.length

/-- The missing mask of a column: the field `Missing`. -/
def Feature.mask : Feature → List Bool
  | Feature.num f => f.Missing
  | Feature.cat f => f.Missing

/-- The memory behind `&cases` and `allocs` after BestSplit has been called once
on each of the given candidates, in list order, starting from `mem`. -/
def BestSplitter.memAfter {Feat Tgt R Split Splitter : Type}
    (m : SearchMethods Feat Tgt R Split Splitter) (fm : FeatureMatrix Feat)
    (target : Tgt) (parentImp : Float64) (cands : List Int)
    (mem : List Int × BestSplitAllocs R) : List Int × BestSplitAllocs R :=
  cands.foldl
    (fun mem i =>
      match index? fm.Data i with
      | none => mem
      | some f => (m.BestSplit f target mem.1 parentImp mem.2).2)
    mem

/-- `FeatureMatrix.ImputeMissing()`: the loop
`for _, f := range fm.Data { f.ImputeMissing() }`. `impute` is the method
ImputeMissing of the columns, which writes to the column it is called on; the
matrix after the call holds, at each position, the column after its call. -/
def ImputeMissing {Feat : Type} (impute : Feat → Feat) (fm : FeatureMatrix Feat) :
    FeatureMatrix Feat :=
  { fm with Data := fm.Data.map impute }

/-- Modelled from the spec: the statistics imputation uses, whose code is in
another file: the mean of the non-missing values of a numeric column (floating
point arithmetic, left open here) and the mode of the non-missing codes of a
categorical column. -/
structure ImputeStats where
  Mean : List Float64 → Float64
  Mode : List Int → Int

/-- The values of a column that are not marked missing. -/
def presentValues {α : Type} (vals : List α) (mask : List Bool) : List α :=
  ((vals.zip mask).filter (fun p => !p.2)).map Prod.fst

/-- The values of a column with `v` put in the place of every value marked
missing. -/
def fillMissing {α : Type} (v : α) : List α → List Bool → List α
  | x :: xs, b :: bs => (if b then v else x) :: fillMissing v xs bs
  | xs, [] => xs
  | [], _ :: _ => []

/-- Modelled from the spec: the method `ImputeMissing` of a column, whose code is
in another file: missing values are imputed in place, numeric ones to the column
mean of the non-missing values, categorical ones to the column mode of the
non-missing values; an imputed value is no longer missing and no value is marked
missing. -/
def Feature.ImputeMissing (stats : ImputeStats) : Feature → Feature
  | Feature.num f =>
    Feature.num
      { f with
        NumData := fillMissing (stats.Mean (presentValues f.NumData f.Missing))
          f.NumData f.Missing
        Missing := f.Missing.map (fun _ => false) }
  | Feature.cat f =>
    Feature.cat
      { f with
        CatData := fillMissing (stats.Mode (presentValues f.CatData f.Missing))
          f.CatData f.Missing
        Missing := f.Missing.map (fun _ => false) }

/-- The methods BestSplitter calls, with the column they are called on as part of
the memory: a method of a column may write to the column it is called on (the
interface holds a pointer), so BestSplit and DecodeSplit also return the column as
the call left it. -/
structure ColumnWritingMethods (Feat Tgt R Split Splitter : Type) where
  /-- `target.Impurity(&cases, allocs.Counter)` -/
  Impurity : Tgt → List Int → List Int → Float64 × List Int × List Int
  /-- `(*f).BestSplit(target, &cases, parentImp, allocs)` and the column after it -/
  BestSplit : Feat → Tgt → List Int → Float64 → BestSplitAllocs R →
    ((Option Split × Float64) × List Int × BestSplitAllocs R) × Feat
  /-- `(*bestF).DecodeSplit(bestSplit)` and the column after it -/
  DecodeSplit : Feat → Option Split → Splitter × Feat

/-- The same methods with the writes to the column left out. -/
def ColumnWritingMethods.forget {Feat Tgt R Split Splitter : Type}
    (m : ColumnWritingMethods Feat Tgt R Split Splitter) :
    SearchMethods Feat Tgt R Split Splitter :=
  { Impurity := m.Impurity
    BestSplit := fun f target cases parentImp allocs =>
      (m.BestSplit f target cases parentImp allocs).1
    DecodeSplit := fun f split => (m.DecodeSplit f split).1 }

/-- The loop of BestSplitter with the matrix as part of the memory: the column of
slot `i` is, after the call of its BestSplit, the column that call left. -/
def BestSplitter.loopOnMatrix {Feat Tgt R Split Splitter : Type}
    (m : ColumnWritingMethods Feat Tgt R Split Splitter)
    (target : Tgt) (parentImp : Float64) :
    List Int → FeatureMatrix Feat → LoopState R Split →
      Option (FeatureMatrix Feat × LoopState R Split)
  | [], fm, st => some (fm, st)
  | i :: rest, fm, st =>
    match index? fm.Data i with
    | none => none
    | some f =>
      let r := m.BestSplit f target st.cases parentImp st.allocs
      let fm1 : FeatureMatrix Feat := { fm with Data := fm.Data.set i.toNat r.2 }
      let split := r.1.1.1
      let inerImp := r.1.1.2
      if inerImp.gt minImp && inerImp.gt st.impurityDecrease then
        BestSplitter.loopOnMatrix m target parentImp rest fm1
          { cases := r.1.2.1, allocs := r.1.2.2, bestF := some i,
            impurityDecrease := inerImp, bestSplit := split }
      else
        BestSplitter.loopOnMatrix m target parentImp rest fm1
          { st with cases := r.1.2.1, allocs := r.1.2.2 }

/-- `FeatureMatrix.BestSplitter` with the matrix as part of the memory: the
result `(s, impurityDecrease)` and the matrix after the call. -/
def BestSplitter.onMatrix {Feat Tgt R Split Splitter : Type}
    (m : ColumnWritingMethods Feat Tgt R Split Splitter) (fm : FeatureMatrix Feat)
    (target : Tgt) (cases : List Int) (candidates : List Int)
    (allocs : BestSplitAllocs R) :
    Option ((Option Splitter × Float64) × FeatureMatrix Feat) :=
  let s0 : Float64 × LoopState R Split := BestSplitter.init m.forget target cases allocs
  match BestSplitter.loopOnMatrix m target s0.1 candidates fm s0.2 with
  | none => none
  | some (fm1, st) =>
    if st.impurityDecrease.gt minImp then
      match st.bestF with
      | none => none
      | some i =>
        match index? fm1.Data i with
        | none => none
        | some f =>
          let r := m.DecodeSplit f st.bestSplit
          some ((some r.1, st.impurityDecrease),
            { fm1 with Data := fm1.Data.set i.toNat r.2 })
    else some ((none, st.impurityDecrease), fm1)

/-- The impurity decrease that BestSplit of the column `f` reports when it is
called after the BestSplit calls of the candidates `pre`, in one BestSplitter call
on the given target, case set and allocations. -/
def BestSplitter.decreaseAfter {Feat Tgt R Split Splitter : Type}
    (m : SearchMethods Feat Tgt R Split Splitter) (fm : FeatureMatrix Feat)
    (target : Tgt) (cases : List Int) (allocs : BestSplitAllocs R)
    (pre : List Int) (f : Feat) : Float64 :=
  let s0 : Float64 × LoopState R Split := BestSplitter.init m target cases allocs
  let mem := BestSplitter.memAfter m fm target s0.1 pre (s0.2.cases, s0.2.allocs)
  (m.BestSplit f target mem.1 s0.1 mem.2).1.2

/-! ## A small instance, used to evaluate the definitions -/

/-- A column of the example: the values of its cases, and the encoded split (a
threshold) and impurity decrease that its BestSplit reports. -/
structure ExampleColumn where
  values : List Int
  threshold : Int
  decrease : Float64

/-- An implementation of the search methods for `ExampleColumn`: the splitter
decoded from a threshold is the threshold itself. -/
def exampleSearch : SearchMethods ExampleColumn Unit Unit Int Int :=
  { Impurity := fun _ cases counter => (Float64.fin 1, cases, counter)
    BestSplit := fun f _ cases _ allocs => ((some f.threshold, f.decrease), cases, allocs)
    DecodeSplit := fun _ split => split.getD 0 }

/-- A matrix of four example columns; columns 1 and 3 report the same decrease. -/
def exampleMatrix : FeatureMatrix ExampleColumn :=
  { Data := [{ values := [0, 5, 7], threshold := 0, decrease := Float64.fin 1 },
             { values := [1, 2, 3], threshold := 2, decrease := Float64.fin 3 },
             { values := [4, 4, 4], threshold := 9, decrease := Float64.nan },
             { values := [3, 1, 2], threshold := 1, decrease := Float64.fin 3 }]
    Map := some (fun _ => none)
    CaseLabels := ["a", "b", "c"] }

/-- The trace of BestSplit calls on the example for the candidates 0, 1, 2, 3. -/
def exampleTrace : List (Eval Int) :=
  [{ column := 0, split := some 0, inerImp := Float64.fin 1 },
   { column := 1, split := some 2, inerImp := Float64.fin 3 },
   { column := 2, split := some 9, inerImp := Float64.nan },
   { column := 3, split := some 1, inerImp := Float64.fin 3 }]

/-- `GoesLeft` for the example columns: a case goes left when its value is at
most the threshold. -/
def ExampleColumn.GoesLeft (f : ExampleColumn) (splitter : Int) (i : Int) : Bool :=
  match index? f.values i with
  | some v => decide (v ≤ splitter)
  | none => false

/-- A random source for the examples: the raw draws 0, 1, 2, ... -/
def exampleRand : Rand := { raw := fun n => n, pos := 0 }

/-- A dense matrix with the single numeric column `A`, registered at position 0. -/
def exampleDense : FeatureMatrix Feature :=
  { Data := [Feature.num { NumData := [Float64.fin 1, Float64.fin 2],
                           Missing := [false, true], Name := "A" }]
    Map := some (fun s => if s = "A" then some 0 else none)
    CaseLabels := ["a", "b"] }

/-- A dense matrix with the columns `A` and `A:SHUFFLED`, registered at positions
0 and 1, as AddContrasts(1) leaves it. -/
def exampleDense2 : FeatureMatrix Feature :=
  { Data := [Feature.num { NumData := [Float64.fin 1, Float64.fin 2],
                           Missing := [false, true], Name := "A" },
             Feature.num { NumData := [Float64.fin 2, Float64.fin 1],
                           Missing := [true, false], Name := "A:SHUFFLED" }]
    Map := some (fun s =>
      if s = "A" then some 0 else if s = "A:SHUFFLED" then some 1 else none)
    CaseLabels := ["a", "b"] }

/-- Library functions for the examples: ParseFloat knows the numerals `1` and
`2`, ToLower lowers each character. -/
def exampleLib : StdLib :=
  { ParseFloat := fun s =>
      if s = "1" then some (Float64.fin 1)
      else if s = "2" then some (Float64.fin 2)
      else none
    ToLower := fun s => String.mk (s.data.map Char.toLower) }

/-- Search methods for `ExampleColumn` that leave a mark in memory at every call:
Impurity appends 1 to the counter, BestSplit appends the threshold of its column
to the cases. -/
def exampleMarking : SearchMethods ExampleColumn Unit Unit Int Int :=
  { Impurity := fun _ cases counter => (Float64.fin 1, cases, counter ++ [1])
    BestSplit := fun f _ cases _ allocs =>
      ((some f.threshold, f.decrease), cases ++ [f.threshold], allocs)
    DecodeSplit := fun _ split => split.getD 0 }

/-- Column-writing methods for `ExampleColumn`: BestSplit sorts the values of its
column in place (here: replaces them by the sorted values 0, 5, 7) and reports the
threshold and decrease of the column. -/
def exampleWriting : ColumnWritingMethods ExampleColumn Unit Unit Int Int :=
  { Impurity := fun _ cases counter => (Float64.fin 1, cases, counter)
    BestSplit := fun f _ cases _ allocs =>
      (((some f.threshold, f.decrease), cases, allocs), { f with values := [0, 5, 7] })
    DecodeSplit := fun f split => (split.getD 0, f) }

/-- Search methods for `ExampleColumn` whose result depends on the case set:
BestSplit writes nothing and reports as decrease the number of the given cases
that its threshold sends left. -/
def exampleCounting : SearchMethods ExampleColumn Unit Unit Int Int :=
  { Impurity := fun _ cases counter => (Float64.fin 1, cases, counter)
    BestSplit := fun f _ cases _ allocs =>
      ((some f.threshold,
        Float64.fin ((cases.filter (f.GoesLeft f.threshold)).length : Int)), cases, allocs)
    DecodeSplit := fun _ split => split.getD 0 }

/-! # Theorems -/

/-! ## Comparison of float64 values -/

lemma Float64.gt_irrefl (a : Float64) : a.gt a = false := by
  cases a <;> simp [Float64.gt]

lemma Float64.gt_trans {a b c : Float64} (h1 : a.gt b = true) (h2 : b.gt c = true) :
    a.gt c = true := by
  cases a <;> cases b <;> cases c <;> simp_all [Float64.gt]
  exact lt_trans h2 h1

lemma Float64.gt_asymm {a b : Float64} (h : a.gt b = true) : b.gt a = false := by
  cases a <;> cases b <;> simp_all [Float64.gt]
  exact le_of_lt h

lemma Float64.ne_nan_of_gt {a b : Float64} (h : a.gt b = true) :
    a ≠ Float64.nan ∧ b ≠ Float64.nan := by
  cases a <;> cases b <;> simp_all [Float64.gt]

lemma Float64.ge_of_not_gt {a b : Float64} (ha : a ≠ Float64.nan) (hb : b ≠ Float64.nan)
    (h : a.gt b = false) : b.ge a = true := by
  cases a <;> cases b <;> simp_all [Float64.gt, Float64.ge]

lemma Float64.gt_of_gt_of_ge {a b c : Float64} (h1 : a.gt b = true) (h2 : b.ge c = true) :
    a.gt c = true := by
  cases a <;> cases b <;> cases c <;> simp_all [Float64.gt, Float64.ge]
  exact lt_of_le_of_lt h2 h1

lemma Float64.ge_of_gt {a b : Float64} (h : a.gt b = true) : a.ge b = true := by
  cases a <;> cases b <;> simp_all [Float64.gt, Float64.ge]
  exact le_of_lt h

lemma Float64.eq_of_not_gt {a b : Float64} (ha : a ≠ Float64.nan) (hb : b ≠ Float64.nan)
    (h1 : a.gt b = false) (h2 : b.gt a = false) : a = b := by
  cases a <;> cases b <;> simp_all [Float64.gt]
  exact le_antisymm h1 h2

lemma Float64.ge_minImp_of_not_gt {d : Float64} (hd : d ≠ Float64.nan)
    (h : minImp.gt d = false) : d.ge minImp = true :=
  Float64.ge_of_not_gt (by simp [minImp]) hd h

/-! ## BestSplitter -/

lemma index?_isSome {α : Type} (xs : List α) (i : Int) (h : 0 ≤ i ∧ i < xs.length) :
    ∃ f, index? xs i = some f := by
  have h2 : i.toNat < xs.length := by omega
  exact ⟨xs[i.toNat], by simp [index?, h.1, List.getElem?_eq_getElem h2]⟩

lemma BestSplitter.evalsFrom_isSome {Feat Tgt R Split Splitter : Type}
    (m : SearchMethods Feat Tgt R Split Splitter) (fm : FeatureMatrix Feat)
    (target : Tgt) (p : Float64) :
    ∀ (cands : List Int) (cases : List Int) (allocs : BestSplitAllocs R),
      (∀ i ∈ cands, 0 ≤ i ∧ i < fm.Data.length) →
      ∃ tr, BestSplitter.evalsFrom m fm target p cands cases allocs = some tr := by
  intro cands
  induction cands with
  | nil => intro cases allocs _; exact ⟨[], rfl⟩
  | cons i rest ih =>
    intro cases allocs h
    obtain ⟨f, hf⟩ := index?_isSome fm.Data i (h i (List.mem_cons_self _ _))
    obtain ⟨tr, htr⟩ := ih (m.BestSplit f target cases p allocs).2.1
      (m.BestSplit f target cases p allocs).2.2
      (fun j hj => h j (List.mem_cons_of_mem _ hj))
    exact ⟨{ column := i, split := (m.BestSplit f target cases p allocs).1.1,
             inerImp := (m.BestSplit f target cases p allocs).1.2 } :: tr,
      by simp [BestSplitter.evalsFrom, hf, htr]⟩

lemma BestSplitter.evalsFrom_columns {Feat Tgt R Split Splitter : Type}
    (m : SearchMethods Feat Tgt R Split Splitter) (fm : FeatureMatrix Feat)
    (target : Tgt) (p : Float64) :
    ∀ (cands : List Int) (cases : List Int) (allocs : BestSplitAllocs R)
      (tr : List (Eval Split)),
      BestSplitter.evalsFrom m fm target p cands cases allocs = some tr →
      tr.map Eval.column = cands ∧
        ∀ e ∈ tr, ∃ f, index? fm.Data e.column = some f := by
  intro cands
  induction cands with
  | nil =>
    intro cases allocs tr h
    simp [BestSplitter.evalsFrom] at h
    subst h
    simp
  | cons i rest ih =>
    intro cases allocs tr h
    simp only [BestSplitter.evalsFrom] at h
    split at h
    · exact absurd h (by simp)
    · rename_i f hf
      split at h
      · exact absurd h (by simp)
      · rename_i tr2 htr2
        have := ih _ _ _ htr2
        simp only [Option.some.injEq] at h
        subst h
        refine ⟨by simp [this.1], ?_⟩
        intro e he
        rcases List.mem_cons.1 he with rfl | he
        · exact ⟨f, hf⟩
        · exact this.2 e he

/-- The loop of BestSplitter against the trace of BestSplit calls: either no call
beat the decrease held on entry and nothing changed, or the loop ends holding the
first call of the trace that attains the largest decrease. -/
lemma BestSplitter.loop_char {Feat Tgt R Split Splitter : Type}
    (m : SearchMethods Feat Tgt R Split Splitter) (fm : FeatureMatrix Feat)
    (target : Tgt) (p : Float64) :
    ∀ (cands : List Int) (st : LoopState R Split) (tr : List (Eval Split)),
      BestSplitter.evalsFrom m fm target p cands st.cases st.allocs = some tr →
      st.impurityDecrease ≠ Float64.nan →
      minImp.gt st.impurityDecrease = false →
      ∃ st2, BestSplitter.loop m fm target p cands st = some st2 ∧
        ((st2.bestF = st.bestF ∧ st2.impurityDecrease = st.impurityDecrease ∧
            st2.bestSplit = st.bestSplit ∧
            ∀ e ∈ tr, e.inerImp.gt st.impurityDecrease = false) ∨
          (∃ (j : Nat) (e : Eval Split), tr[j]? = some e ∧
            st2.bestF = some e.column ∧ st2.impurityDecrease = e.inerImp ∧
            st2.bestSplit = e.split ∧ e.inerImp.gt st.impurityDecrease = true ∧
            (∀ (j2 : Nat) (e2 : Eval Split), j2 < j → tr[j2]? = some e2 →
              e2.inerImp ≠ e.inerImp) ∧
            ∀ e2 ∈ tr, e2.inerImp.gt e.inerImp = false)) := by
  intro cands
  induction cands with
  | nil =>
    intro st tr h _ _
    simp [BestSplitter.evalsFrom] at h
    subst h
    exact ⟨st, rfl, Or.inl ⟨rfl, rfl, rfl, by simp⟩⟩
  | cons i rest ih =>
    intro st tr h hnan hfloor
    simp only [BestSplitter.evalsFrom] at h
    split at h
    · exact absurd h (by simp)
    rename_i f hf
    split at h
    · exact absurd h (by simp)
    rename_i tr2 htr2
    simp only [Option.some.injEq] at h
    subst h
    simp only [BestSplitter.loop, hf]
    by_cases hc : ((m.BestSplit f target st.cases p st.allocs).1.2.gt minImp &&
        (m.BestSplit f target st.cases p st.allocs).1.2.gt st.impurityDecrease) = true
    · rw [if_pos hc]
      simp only [Bool.and_eq_true] at hc
      obtain ⟨st2, hst2, hch⟩ := ih
        { cases := (m.BestSplit f target st.cases p st.allocs).2.1,
          allocs := (m.BestSplit f target st.cases p st.allocs).2.2,
          bestF := some i,
          impurityDecrease := (m.BestSplit f target st.cases p st.allocs).1.2,
          bestSplit := (m.BestSplit f target st.cases p st.allocs).1.1 } tr2 htr2
        (Float64.ne_nan_of_gt hc.1).1 (Float64.gt_asymm hc.1)
      refine ⟨st2, hst2, Or.inr ?_⟩
      rcases hch with ⟨hF, hI, hS, hall⟩ | ⟨j, e, hj, hF, hI, hS, hgt, hfirst, hmax⟩
      · refine ⟨0, { column := i, split := (m.BestSplit f target st.cases p st.allocs).1.1,
                     inerImp := (m.BestSplit f target st.cases p st.allocs).1.2 },
          by simp, hF, hI, hS, hc.2, ?_, ?_⟩
        · intro j2 e2 hlt; omega
        · intro e2 he2
          rcases List.mem_cons.1 he2 with rfl | he2
          · exact Float64.gt_irrefl _
          · exact hall e2 he2
      · refine ⟨j + 1, e, by simpa using hj, hF, hI, hS,
          Float64.gt_trans hgt hc.2, ?_, ?_⟩
        · intro j2 e2 hlt he2
          cases j2 with
          | zero =>
            simp only [List.getElem?_cons_zero, Option.some.injEq] at he2
            subst he2
            intro heq
            simp only at heq hgt
            rw [heq, Float64.gt_irrefl] at hgt
            exact absurd hgt (by simp)
          | succ j3 =>
            exact hfirst j3 e2 (by omega) (by simpa using he2)
        · intro e2 he2
          rcases List.mem_cons.1 he2 with rfl | he2
          · exact Float64.gt_asymm hgt
          · exact hmax e2 he2
    · rw [if_neg hc]
      obtain ⟨st2, hst2, hch⟩ := ih
        { st with cases := (m.BestSplit f target st.cases p st.allocs).2.1,
                  allocs := (m.BestSplit f target st.cases p st.allocs).2.2 } tr2 htr2
        hnan hfloor
      have hno : (m.BestSplit f target st.cases p st.allocs).1.2.gt st.impurityDecrease
          = false := by
        by_contra hgt
        simp only [Bool.not_eq_false] at hgt
        apply hc
        simp only [Bool.and_eq_true]
        exact ⟨Float64.gt_of_gt_of_ge hgt (Float64.ge_minImp_of_not_gt hnan hfloor), hgt⟩
      refine ⟨st2, hst2, ?_⟩
      rcases hch with ⟨hF, hI, hS, hall⟩ | ⟨j, e, hj, hF, hI, hS, hgt, hfirst, hmax⟩
      · refine Or.inl ⟨hF, hI, hS, ?_⟩
        intro e2 he2
        rcases List.mem_cons.1 he2 with rfl | he2
        · exact hno
        · exact hall e2 he2
      · refine Or.inr ⟨j + 1, e, by simpa using hj, hF, hI, hS, hgt, ?_, ?_⟩
        · intro j2 e2 hlt he2
          cases j2 with
          | zero =>
            simp only [List.getElem?_cons_zero, Option.some.injEq] at he2
            subst he2
            intro heq
            simp only at heq hgt hno
            rw [heq, hgt] at hno
            exact absurd hno (by simp)
          | succ j3 =>
            exact hfirst j3 e2 (by omega) (by simpa using he2)
        · intro e2 he2
          rcases List.mem_cons.1 he2 with rfl | he2
          · by_contra hgt2
            simp only [Bool.not_eq_false] at hgt2
            have := Float64.gt_trans hgt2 hgt
            simp only at this hno
            rw [this] at hno
            exact absurd hno (by simp)
          · exact hmax e2 he2

/-- The trace of BestSplit calls exists as soon as every candidate index is in
range of the column sequence. -/
lemma BestSplitter.evals_isSome {Feat Tgt R Split Splitter : Type}
    (m : SearchMethods Feat Tgt R Split Splitter) (fm : FeatureMatrix Feat)
    (target : Tgt) (cases : List Int) (candidates : List Int)
    (allocs : BestSplitAllocs R)
    (hin : ∀ i ∈ candidates, 0 ≤ i ∧ i < fm.Data.length) :
    ∃ tr : List (Eval Split),
      BestSplitter.evals m fm target cases candidates allocs = some tr :=
  BestSplitter.evalsFrom_isSome m fm target _ candidates _ _ hin

/-- The trace lists the candidates in list order, one entry per occurrence. -/
lemma BestSplitter.evals_columns {Feat Tgt R Split Splitter : Type}
    (m : SearchMethods Feat Tgt R Split Splitter) (fm : FeatureMatrix Feat)
    (target : Tgt) (cases : List Int) (candidates : List Int)
    (allocs : BestSplitAllocs R) (tr : List (Eval Split))
    (htr : BestSplitter.evals m fm target cases candidates allocs = some tr) :
    tr.map Eval.column = candidates :=
  (BestSplitter.evalsFrom_columns m fm target _ candidates _ _ tr htr).1

/-- What BestSplitter returns, in terms of the trace of BestSplit calls. -/
lemma BestSplitter.result_char {Feat Tgt R Split Splitter : Type}
    (m : SearchMethods Feat Tgt R Split Splitter) (fm : FeatureMatrix Feat)
    (target : Tgt) (cases : List Int) (candidates : List Int)
    (allocs : BestSplitAllocs R) (tr : List (Eval Split))
    (htr : BestSplitter.evals m fm target cases candidates allocs = some tr) :
    ((∀ e ∈ tr, e.inerImp.gt minImp = false) ∧
        BestSplitter m fm target cases candidates allocs = some (none, minImp)) ∨
      (∃ (j : Nat) (e : Eval Split) (f : Feat), tr[j]? = some e ∧
        index? fm.Data e.column = some f ∧
        BestSplitter m fm target cases candidates allocs
          = some (some (m.DecodeSplit f e.split), e.inerImp) ∧
        e.inerImp.gt minImp = true ∧
        (∀ (j2 : Nat) (e2 : Eval Split), j2 < j → tr[j2]? = some e2 →
          e2.inerImp ≠ e.inerImp) ∧
        ∀ e2 ∈ tr, e2.inerImp.gt e.inerImp = false) := by
  have hcols := BestSplitter.evalsFrom_columns m fm target _ candidates _ _ tr htr
  obtain ⟨st2, hst2, hch⟩ := BestSplitter.loop_char m fm target
    (BestSplitter.init m target cases allocs : Float64 × LoopState R Split).1 candidates
    (BestSplitter.init m target cases allocs).2 tr htr
    (by simp [BestSplitter.init, minImp]) (by simp [BestSplitter.init, Float64.gt_irrefl])
  rcases hch with ⟨_, hI, _, hall⟩ | ⟨j, e, hj, hF, hI, hS, hgt, hfirst, hmax⟩
  · left
    refine ⟨hall, ?_⟩
    have hI2 : st2.impurityDecrease = minImp := hI
    simp only [BestSplitter, hst2, hI2, Float64.gt_irrefl]
    simp
  · right
    have hmem : e ∈ tr := List.getElem?_mem hj
    obtain ⟨f, hf⟩ := hcols.2 e hmem
    have hgt2 : e.inerImp.gt minImp = true := hgt
    refine ⟨j, e, f, hj, hf, ?_, hgt2, hfirst, hmax⟩
    simp only [BestSplitter, hst2, hI, hgt2, hF, hf, hS]
    simp

/-- C1: when some candidate's best-split decrease exceeds the floor `minImp`,
BestSplitter returns the largest of the candidates' decreases (it is attained by
a candidate and no candidate's decrease is greater; every decrease that is not
NaN is at most it), and the returned splitter is DecodeSplit, by the column
attaining it, of the encoded split that column returned. `tr` is the list of the
BestSplit results of the candidates, in list order. -/
theorem BestSplitter_returns_max {Feat Tgt R Split Splitter : Type}
    (m : SearchMethods Feat Tgt R Split Splitter) (fm : FeatureMatrix Feat)
    (target : Tgt) (cases : List Int) (candidates : List Int)
    (allocs : BestSplitAllocs R) (tr : List (Eval Split))
    (htr : BestSplitter.evals m fm target cases candidates allocs = some tr)
    (hex : ∃ e ∈ tr, e.inerImp.gt minImp = true) :
    ∃ (e : Eval Split) (f : Feat), e ∈ tr ∧ index? fm.Data e.column = some f ∧
      BestSplitter m fm target cases candidates allocs
        = some (some (m.DecodeSplit f e.split), e.inerImp) ∧
      ∀ e2 ∈ tr, e2.inerImp.gt e.inerImp = false ∧
        (e2.inerImp = Float64.nan ∨ e.inerImp.ge e2.inerImp = true) := by
  rcases BestSplitter.result_char m fm target cases candidates allocs tr htr with
    ⟨hall, _⟩ | ⟨j, e, f, hj, hf, hres, hgt, _, hmax⟩
  · obtain ⟨e, he, hgt⟩ := hex
    rw [hall e he] at hgt
    exact absurd hgt (by simp)
  · refine ⟨e, f, List.getElem?_mem hj, hf, hres, ?_⟩
    intro e2 he2
    refine ⟨hmax e2 he2, ?_⟩
    by_cases hn : e2.inerImp = Float64.nan
    · exact Or.inl hn
    · exact Or.inr (Float64.ge_of_not_gt hn (Float64.ne_nan_of_gt hgt).1 (hmax e2 he2))

/-- Evaluation of C1 on the example: candidates 0, 1, 2, 3. -/
theorem BestSplitter_returns_max_witness :
    BestSplitter.evals exampleSearch exampleMatrix () [0, 1, 2] [0, 1, 2, 3]
        { Counter := [], Rest := () } = some exampleTrace ∧
      ∃ (e : Eval Int) (f : ExampleColumn), e ∈ exampleTrace ∧
        index? exampleMatrix.Data e.column = some f ∧
        BestSplitter exampleSearch exampleMatrix () [0, 1, 2] [0, 1, 2, 3]
            { Counter := [], Rest := () }
          = some (some (exampleSearch.DecodeSplit f e.split), e.inerImp) ∧
        ∀ e2 ∈ exampleTrace, e2.inerImp.gt e.inerImp = false ∧
          (e2.inerImp = Float64.nan ∨ e.inerImp.ge e2.inerImp = true) :=
  ⟨rfl, BestSplitter_returns_max exampleSearch exampleMatrix () [0, 1, 2] [0, 1, 2, 3]
    { Counter := [], Rest := () } exampleTrace rfl
    ⟨{ column := 0, split := some 0, inerImp := Float64.fin 1 },
      by simp [exampleTrace], by decide⟩⟩

/-- C2: among the candidates whose decrease is the largest one (above the floor),
BestSplitter selects the one that comes first in the candidate list: if entry `j`
of the trace exceeds the floor, no entry is greater, and no earlier entry has the
same decrease, then the result is that entry's decrease and the splitter decoded
by its column from its encoded split. -/
theorem BestSplitter_first_of_ties {Feat Tgt R Split Splitter : Type}
    (m : SearchMethods Feat Tgt R Split Splitter) (fm : FeatureMatrix Feat)
    (target : Tgt) (cases : List Int) (candidates : List Int)
    (allocs : BestSplitAllocs R) (tr : List (Eval Split))
    (htr : BestSplitter.evals m fm target cases candidates allocs = some tr)
    (j : Nat) (e : Eval Split) (f : Feat)
    (hj : tr[j]? = some e) (hf : index? fm.Data e.column = some f)
    (hfloor : e.inerImp.gt minImp = true)
    (hmax : ∀ e2 ∈ tr, e2.inerImp.gt e.inerImp = false)
    (hfirst : ∀ (j2 : Nat) (e2 : Eval Split), j2 < j → tr[j2]? = some e2 →
      e2.inerImp ≠ e.inerImp) :
    BestSplitter m fm target cases candidates allocs
      = some (some (m.DecodeSplit f e.split), e.inerImp) := by
  rcases BestSplitter.result_char m fm target cases candidates allocs tr htr with
    ⟨hall, _⟩ | ⟨j0, e0, f0, hj0, hf0, hres, hgt0, hfirst0, hmax0⟩
  · rw [hall e (List.getElem?_mem hj)] at hfloor
    exact absurd hfloor (by simp)
  · have heq : e0.inerImp = e.inerImp :=
      Float64.eq_of_not_gt (Float64.ne_nan_of_gt hgt0).1 (Float64.ne_nan_of_gt hfloor).1
        (hmax e0 (List.getElem?_mem hj0)) (hmax0 e (List.getElem?_mem hj))
    have hjj : j0 = j := by
      rcases Nat.lt_trichotomy j0 j with h | h | h
      · exact absurd heq (hfirst j0 e0 h hj0)
      · exact h
      · exact absurd heq.symm (hfirst0 j e h hj)
    subst hjj
    rw [hj0] at hj
    simp only [Option.some.injEq] at hj
    subst hj
    rw [hf0] at hf
    simp only [Option.some.injEq] at hf
    subst hf
    exact hres

/-- Evaluation of C2 on the example: columns 1 and 3 tie, column 1 is selected. -/
theorem BestSplitter_first_of_ties_witness :
    BestSplitter exampleSearch exampleMatrix () [0, 1, 2] [0, 1, 2, 3]
        { Counter := [], Rest := () } = some (some 2, Float64.fin 3) :=
  BestSplitter_first_of_ties exampleSearch exampleMatrix () [0, 1, 2] [0, 1, 2, 3]
    { Counter := [], Rest := () } exampleTrace rfl 1
    { column := 1, split := some 2, inerImp := Float64.fin 3 }
    { values := [1, 2, 3], threshold := 2, decrease := Float64.fin 3 }
    rfl rfl (by decide) (by decide)
    (by
      intro j2 e2 hlt h2
      have h0 : j2 = 0 := by omega
      subst h0
      simp [exampleTrace] at h2
      subst h2
      decide)

/-- C3: BestSplitter returns a nil splitter exactly when no candidate's decrease
is strictly greater than the floor `minImp`, in particular for an empty candidate
list; the decrease returned with a nil splitter is the floor, and the decrease
returned is never below the floor. -/
theorem BestSplitter_nil_iff {Feat Tgt R Split Splitter : Type}
    (m : SearchMethods Feat Tgt R Split Splitter) (fm : FeatureMatrix Feat)
    (target : Tgt) (cases : List Int) (candidates : List Int)
    (allocs : BestSplitAllocs R) (tr : List (Eval Split))
    (htr : BestSplitter.evals m fm target cases candidates allocs = some tr) :
    ∃ (s : Option Splitter) (d : Float64),
      BestSplitter m fm target cases candidates allocs = some (s, d) ∧
      (s = none ↔ ∀ e ∈ tr, e.inerImp.gt minImp = false) ∧
      (candidates = [] → s = none) ∧
      (s = none → d = minImp) ∧
      d.ge minImp = true := by
  have hcols := BestSplitter.evals_columns m fm target cases candidates allocs tr htr
  rcases BestSplitter.result_char m fm target cases candidates allocs tr htr with
    ⟨hall, hres⟩ | ⟨j, e, f, hj, hf, hres, hgt, _, hmax⟩
  · refine ⟨none, minImp, hres, ⟨fun _ => hall, fun _ => rfl⟩, fun _ => rfl,
      fun _ => rfl, by decide⟩
  · refine ⟨some (m.DecodeSplit f e.split), e.inerImp, hres, ⟨?_, ?_⟩, ?_, ?_,
      Float64.ge_of_gt hgt⟩
    · intro h; exact absurd h (by simp)
    · intro hall
      rw [hall e (List.getElem?_mem hj)] at hgt
      exact absurd hgt (by simp)
    · intro hc
      subst hc
      have : tr = [] := by simpa using hcols
      subst this
      simp at hj
    · intro h; exact absurd h (by simp)

/-- Evaluation of C3 on the example: the only candidate reports NaN. -/
theorem BestSplitter_nil_iff_witness :
    BestSplitter.evals exampleSearch exampleMatrix () [0, 1, 2] [2]
        { Counter := [], Rest := () }
      = some [{ column := 2, split := some 9, inerImp := Float64.nan }] ∧
    ∃ (s : Option Int) (d : Float64),
      BestSplitter exampleSearch exampleMatrix () [0, 1, 2] [2]
        { Counter := [], Rest := () } = some (s, d) ∧
      (s = none ↔ ∀ e ∈ [({ column := 2, split := some 9, inerImp := Float64.nan } : Eval Int)],
        e.inerImp.gt minImp = false) ∧
      (([2] : List Int) = [] → s = none) ∧
      (s = none → d = minImp) ∧
      d.ge minImp = true :=
  ⟨rfl, BestSplitter_nil_iff exampleSearch exampleMatrix () [0, 1, 2] [2]
    { Counter := [], Rest := () } _ rfl⟩

/-- C4: the claim needs the minimum leaf size to reach every column's BestSplit,
but BestSplitter has no leaf size among its parameters and calls BestSplit with
target, cases, parent impurity and allocations only. On the example, with the
single candidate column 0, the returned splitter (threshold 0) sends one case left
and two right, whatever minimum leaf size is configured (for instance 2). -/
theorem BestSplitter_leaf_size_unchecked :
    BestSplitter exampleSearch exampleMatrix () [0, 1, 2] [0]
        { Counter := [], Rest := () } = some (some 0, Float64.fin 1) ∧
      ([0, 1, 2].filter
        (ExampleColumn.GoesLeft { values := [0, 5, 7], threshold := 0,
                                  decrease := Float64.fin 1 } 0)) = [0] ∧
      ([0, 1, 2].filter (fun i =>
        !(ExampleColumn.GoesLeft { values := [0, 5, 7], threshold := 0,
                                   decrease := Float64.fin 1 } 0 i))) = [1, 2] := by
  decide

/-! ## AddContrasts and ContrastAll -/

lemma Rand.Intn_range (g : Rand) (n : Int) (hn : 0 < n) :
    ∃ (r : Int) (g1 : Rand), g.Intn n = some (r, g1) ∧ 0 ≤ r ∧ r < n := by
  refine ⟨(g.raw g.pos : Int) % n, { g with pos := g.pos + 1 }, ?_, ?_, ?_⟩
  · simp [Rand.Intn, not_le.2 hn]
  · exact Int.emod_nonneg _ (by omega)
  · exact Int.emod_lt_of_pos _ hn

lemma Rand.Intn_some (g : Rand) (n r : Int) (g1 : Rand) (h : g.Intn n = some (r, g1)) :
    0 < n ∧ 0 ≤ r ∧ r < n := by
  unfold Rand.Intn at h
  split at h
  · exact absurd h (by simp)
  · rename_i hn
    simp only [Option.some.injEq, Prod.mk.injEq] at h
    have hpos : 0 < n := by omega
    rw [← h.1]
    exact ⟨hpos, Int.emod_nonneg _ (by omega), Int.emod_lt_of_pos _ hpos⟩

/-- The write to the name index goes through exactly when the map is not nil. -/
lemma appendFake_eq_some {Feat : Type} {m : ColumnMethods Feat} {fm fm1 : FeatureMatrix Feat}
    {fake : Feat} (h : appendFake m fm fake = some fm1) :
    ∃ lookup, fm.Map = some lookup ∧
      fm1 = { fm with
              Map := some (mapSet lookup (m.GetName fake) (fm.Data.length : Int))
              Data := fm.Data ++ [fake] } := by
  unfold appendFake at h
  split at h
  · exact absurd h (by simp)
  · rename_i lookup hl
    simp only [Option.some.injEq] at h
    exact ⟨lookup, hl, h.symm⟩

lemma appendFake_isSome {Feat : Type} (m : ColumnMethods Feat) (fm : FeatureMatrix Feat)
    (fake : Feat) (hmap : fm.Map ≠ none) :
    ∃ fm1, appendFake m fm fake = some fm1 := by
  cases hm : fm.Map with
  | none => exact absurd hm hmap
  | some lookup =>
    exact ⟨{ fm with
             Map := some (mapSet lookup (m.GetName fake) (fm.Data.length : Int))
             Data := fm.Data ++ [fake] }, by simp [appendFake, hm]⟩

lemma appendFake_Data {Feat : Type} {m : ColumnMethods Feat} {fm fm1 : FeatureMatrix Feat}
    {fake : Feat} (h : appendFake m fm fake = some fm1) :
    fm1.Data = fm.Data ++ [fake] := by
  obtain ⟨lookup, _, rfl⟩ := appendFake_eq_some h
  rfl

lemma appendFake_CaseLabels {Feat : Type} {m : ColumnMethods Feat}
    {fm fm1 : FeatureMatrix Feat} {fake : Feat} (h : appendFake m fm fake = some fm1) :
    fm1.CaseLabels = fm.CaseLabels := by
  obtain ⟨lookup, _, rfl⟩ := appendFake_eq_some h
  rfl

lemma appendFake_Map {Feat : Type} {m : ColumnMethods Feat}
    {fm fm1 : FeatureMatrix Feat} {fake : Feat} (h : appendFake m fm fake = some fm1) :
    fm.Map ≠ none ∧ fm1.Map ≠ none := by
  obtain ⟨lookup, hl, rfl⟩ := appendFake_eq_some h
  simp [hl]

/-- Registering a column under its name at the position where it is appended
keeps the name index pointing at the last bearer of every name. -/
lemma appendFake_lastWins {Feat : Type} {m : ColumnMethods Feat}
    {fm fm1 : FeatureMatrix Feat} {fake : Feat} (happ : appendFake m fm fake = some fm1)
    (h : LastWins m fm) : LastWins m fm1 := by
  obtain ⟨lookup, hl, rfl⟩ := appendFake_eq_some happ
  intro i f hi hlater
  simp only at hi hlater
  by_cases hlt : i < fm.Data.length
  · rw [List.getElem?_append_left hlt] at hi
    have hne : m.GetName f ≠ m.GetName fake := by
      intro heq
      exact hlater fm.Data.length fake hlt (by simp) heq.symm
    have hold := h i f hi (by
      intro j f2 hij hj
      have hjlt : j < fm.Data.length := (List.getElem?_eq_some.1 hj).1
      exact hlater j f2 hij (by rw [List.getElem?_append_left hjlt]; exact hj))
    rw [hl] at hold
    simp only [mapGet, mapSet, hne, if_false]
    exact hold
  · have hlen : i < (fm.Data ++ [fake]).length := (List.getElem?_eq_some.1 hi).1
    have hi2 : i = fm.Data.length := by simp at hlen; omega
    subst hi2
    simp at hi
    subst hi
    simp [mapGet, mapSet]

lemma MapInvariant.lastWins {Feat : Type} {m : ColumnMethods Feat}
    {fm : FeatureMatrix Feat} (h : MapInvariant m fm) : LastWins m fm :=
  fun i f hi _ => h i f hi

/-- A matrix with a column that satisfies the invariant has a name index that is
not nil. -/
lemma MapInvariant.map_ne_none {Feat : Type} {m : ColumnMethods Feat}
    {fm : FeatureMatrix Feat} (h : MapInvariant m fm) (hk : 1 ≤ fm.Data.length) :
    fm.Map ≠ none := by
  intro hnil
  have h0 := h 0 fm.Data[0] (List.getElem?_eq_getElem (by omega))
  rw [hnil] at h0
  simp [mapGet] at h0

lemma LastWins.mapInvariant {Feat : Type} {m : ColumnMethods Feat}
    {fm : FeatureMatrix Feat} (h : LastWins m fm)
    (hnd : (fm.Data.map m.GetName).Nodup) : MapInvariant m fm := by
  intro i f hi
  apply h i f hi
  intro j f2 hij hj heq
  have hil : i < (fm.Data.map m.GetName).length := by
    simpa using (List.getElem?_eq_some.1 hi).1
  have hjl : j < (fm.Data.map m.GetName).length := by
    simpa using (List.getElem?_eq_some.1 hj).1
  have h1 : (fm.Data.map m.GetName)[i] = m.GetName f := by
    obtain ⟨h0, h1⟩ := List.getElem?_eq_some.1 hi
    simp [h1]
  have h2 : (fm.Data.map m.GetName)[j] = m.GetName f2 := by
    obtain ⟨h0, h1⟩ := List.getElem?_eq_some.1 hj
    simp [h1]
  have := (@List.Nodup.getElem_inj_iff _ _ hnd i hil j hjl).1 (by rw [h1, h2, heq])
  omega

/-- The invariant forces the names of the columns to be pairwise distinct. -/
lemma MapInvariant.nodup {Feat : Type} {m : ColumnMethods Feat}
    {fm : FeatureMatrix Feat} (h : MapInvariant m fm) :
    (fm.Data.map m.GetName).Nodup := by
  rw [List.nodup_iff_getElem?_ne_getElem?]
  intro i j hij hj heq
  have hjd : j < fm.Data.length := by simpa using hj
  have hid : i < fm.Data.length := by omega
  have hi1 := h i fm.Data[i] (List.getElem?_eq_getElem hid)
  have hj1 := h j fm.Data[j] (List.getElem?_eq_getElem hjd)
  have hnames : m.GetName fm.Data[i] = m.GetName fm.Data[j] := by
    simp only [List.getElem?_map, List.getElem?_eq_getElem hid,
      List.getElem?_eq_getElem hjd, Option.map_some', Option.some.injEq] at heq
    exact heq
  rw [hnames, hj1] at hi1
  simp only [Option.some.injEq, Nat.cast_inj] at hi1
  omega

/-- The loop of AddContrasts, when it returns: it has appended one column per
iteration, each the ShuffledCopy of one of the columns present when the call
started (`base`), whatever has been appended since, and it has touched neither the
columns already there nor the case labels. -/
lemma AddContrasts_loop_spec {Feat : Type} (m : ColumnMethods Feat) (base : List Feat) :
    ∀ (k : Nat) (fm : FeatureMatrix Feat) (g : Rand) (out : FeatureMatrix Feat × Rand),
      AddContrasts.loop m (base.length : Int) k fm g = some out → base <+: fm.Data →
      ∃ fakes : List Feat,
        out.1.Data = fm.Data ++ fakes ∧ fakes.length = k ∧
        out.1.CaseLabels = fm.CaseLabels ∧
        (LastWins m fm → LastWins m out.1) ∧
        ∀ fake ∈ fakes, ∃ (r : Nat) (orig : Feat) (g1 : Rand),
          r < base.length ∧ base[r]? = some orig ∧ fake = (m.ShuffledCopy orig g1).1 := by
  intro k
  induction k with
  | zero =>
    intro fm g out h _
    simp only [AddContrasts.loop, Option.some.injEq] at h
    subst h
    exact ⟨[], by simp, rfl, rfl, id, by simp⟩
  | succ k ih =>
    intro fm g out h hpre
    simp only [AddContrasts.loop] at h
    split at h
    · exact absurd h (by simp)
    rename_i r g1 hr
    obtain ⟨_, hr0, hrn⟩ := Rand.Intn_some g _ r g1 hr
    split at h
    · exact absurd h (by simp)
    rename_i orig horig
    split at h
    · exact absurd h (by simp)
    rename_i fm1 happ
    have hrlt : r.toNat < base.length := by omega
    have hbase : base[r.toNat]? = some orig := by
      have h1 : base[r.toNat]? = some base[r.toNat] := List.getElem?_eq_getElem hrlt
      have h2 : fm.Data[r.toNat]? = some base[r.toNat] := by
        obtain ⟨t, ht⟩ := hpre
        rw [← ht, List.getElem?_append_left hrlt]
        exact h1
      have h3 : fm.Data[r.toNat]? = some orig := by
        simpa [index?, hr0] using horig
      rw [h2] at h3
      rw [h1, h3]
    obtain ⟨fakes, hdata, hlen, hlabels, hlw, hsrc⟩ := ih fm1 _ out h
      (by rw [appendFake_Data happ]; exact hpre.trans (List.prefix_append _ _))
    refine ⟨(m.ShuffledCopy orig g1).1 :: fakes, ?_, by simp [hlen], ?_, ?_, ?_⟩
    · rw [hdata, appendFake_Data happ]; simp
    · rw [hlabels, appendFake_CaseLabels happ]
    · intro hl
      exact hlw (appendFake_lastWins happ hl)
    · intro fake hfake
      rcases List.mem_cons.1 hfake with rfl | hfake
      · exact ⟨r.toNat, orig, g1, hrlt, hbase, rfl⟩
      · exact hsrc fake hfake

/-- The loop of AddContrasts returns whenever there is a column to draw from and
the name index is not nil. -/
lemma AddContrasts_loop_isSome {Feat : Type} (m : ColumnMethods Feat) (nreal : Int) :
    ∀ (k : Nat) (fm : FeatureMatrix Feat) (g : Rand),
      0 < nreal → nreal ≤ fm.Data.length → fm.Map ≠ none →
      ∃ out, AddContrasts.loop m nreal k fm g = some out := by
  intro k
  induction k with
  | zero => intro fm g _ _ _; exact ⟨_, rfl⟩
  | succ k ih =>
    intro fm g hpos hle hmap
    obtain ⟨r, g1, hr, hr0, hrn⟩ := Rand.Intn_range g nreal hpos
    obtain ⟨orig, horig⟩ := index?_isSome fm.Data r ⟨hr0, by omega⟩
    obtain ⟨fm1, happ⟩ := appendFake_isSome m fm (m.ShuffledCopy orig g1).1 hmap
    obtain ⟨out, hout⟩ := ih fm1 (m.ShuffledCopy orig g1).2 hpos
      (by rw [appendFake_Data happ]; simp; omega) (appendFake_Map happ).2
    exact ⟨out, by simp only [AddContrasts.loop, hr, horig, happ]; exact hout⟩

/-- The loop of ContrastAll, when it returns and the columns still to be copied
are within the column sequence: the copy appended at step `t` is the ShuffledCopy
of the column at position `i + t`. -/
lemma ContrastAll_loop_spec {Feat : Type} (m : ColumnMethods Feat) :
    ∀ (k i : Nat) (fm : FeatureMatrix Feat) (g : Rand) (out : FeatureMatrix Feat × Rand),
      ContrastAll.loop m k i fm g = some out → i + k ≤ fm.Data.length →
      ∃ fakes : List Feat,
        out.1.Data = fm.Data ++ fakes ∧ fakes.length = k ∧
        out.1.CaseLabels = fm.CaseLabels ∧
        (LastWins m fm → LastWins m out.1) ∧
        ∀ t, t < k → ∃ (orig : Feat) (gt : Rand),
          fm.Data[i + t]? = some orig ∧ fakes[t]? = some (m.ShuffledCopy orig gt).1 := by
  intro k
  induction k with
  | zero =>
    intro i fm g out h _
    simp only [ContrastAll.loop, Option.some.injEq] at h
    subst h
    exact ⟨[], by simp, rfl, rfl, id, by intro t ht; omega⟩
  | succ k ih =>
    intro i fm g out h hle
    simp only [ContrastAll.loop] at h
    split at h
    · exact absurd h (by simp)
    rename_i orig horig
    split at h
    · exact absurd h (by simp)
    rename_i fm1 happ
    obtain ⟨fakes, hdata, hlen, hlabels, hlw, hcopies⟩ := ih (i + 1) fm1 _ out h
      (by rw [appendFake_Data happ]; simp; omega)
    refine ⟨(m.ShuffledCopy orig g).1 :: fakes, ?_, by simp [hlen], ?_, ?_, ?_⟩
    · rw [hdata, appendFake_Data happ]; simp
    · rw [hlabels, appendFake_CaseLabels happ]
    · intro hl
      exact hlw (appendFake_lastWins happ hl)
    · intro t ht
      cases t with
      | zero => exact ⟨orig, g, by simpa using horig, by simp⟩
      | succ t =>
        obtain ⟨orig2, gt, ho, hf⟩ := hcopies t (by omega)
        refine ⟨orig2, gt, ?_, by simpa using hf⟩
        rw [appendFake_Data happ, List.getElem?_append_left (by omega)] at ho
        rw [← ho]
        congr 1
        omega

/-- The loop of ContrastAll returns whenever the columns still to be copied are
within the column sequence and the name index is not nil. -/
lemma ContrastAll_loop_isSome {Feat : Type} (m : ColumnMethods Feat) :
    ∀ (k i : Nat) (fm : FeatureMatrix Feat) (g : Rand),
      i + k ≤ fm.Data.length → (fm.Map ≠ none ∨ k = 0) →
      ∃ out, ContrastAll.loop m k i fm g = some out := by
  intro k
  induction k with
  | zero => intro i fm g _ _; exact ⟨_, rfl⟩
  | succ k ih =>
    intro i fm g hle hmap
    have hmap2 : fm.Map ≠ none := by
      rcases hmap with h | h
      · exact h
      · omega
    have hi : i < fm.Data.length := by omega
    obtain ⟨fm1, happ⟩ := appendFake_isSome m fm (m.ShuffledCopy fm.Data[i] g).1 hmap2
    obtain ⟨out, hout⟩ := ih (i + 1) fm1 (m.ShuffledCopy fm.Data[i] g).2
      (by rw [appendFake_Data happ]; simp; omega) (Or.inl (appendFake_Map happ).2)
    exact ⟨out, by
      simp only [ContrastAll.loop, List.getElem?_eq_getElem hi, happ]; exact hout⟩

/-- On a nil name index the first write panics: AddContrasts(n) with `n ≥ 1` does
not return. -/
lemma AddContrasts_nil_Map {Feat : Type} (m : ColumnMethods Feat)
    (fm : FeatureMatrix Feat) (n : Int) (g : Rand) (hnil : fm.Map = none) (hn : 1 ≤ n) :
    AddContrasts m fm n g = none := by
  obtain ⟨k, hk⟩ := Nat.exists_eq_succ_of_ne_zero (show n.toNat ≠ 0 by omega)
  simp only [AddContrasts, hk, AddContrasts.loop]
  cases g.Intn (fm.Data.length : Int) with
  | none => rfl
  | some p =>
    obtain ⟨r, g1⟩ := p
    simp only
    cases index? fm.Data r with
    | none => rfl
    | some orig => simp [appendFake, hnil]

/-- On a nil name index the first write panics: ContrastAll on a matrix with a
column does not return. -/
lemma ContrastAll_nil_Map {Feat : Type} (m : ColumnMethods Feat)
    (fm : FeatureMatrix Feat) (g : Rand) (hnil : fm.Map = none)
    (hk : 1 ≤ fm.Data.length) : ContrastAll m fm g = none := by
  obtain ⟨k, hk2⟩ := Nat.exists_eq_succ_of_ne_zero (show fm.Data.length ≠ 0 by omega)
  simp only [ContrastAll, hk2, ContrastAll.loop]
  cases fm.Data[0]? with
  | none => rfl
  | some orig => simp [appendFake, hnil]

/-- C5: for `n ≥ 0` and a matrix with at least one column whose name index is not
nil (a write to a nil map panics; with `n = 0` nothing is written), AddContrasts(n)
completes, the number of columns grows by exactly `n`, and the columns present
before the call are a prefix of the resulting column sequence: each is still at
its position, unchanged. -/
theorem AddContrasts_appends {Feat : Type} (m : ColumnMethods Feat)
    (fm : FeatureMatrix Feat) (n : Int) (g : Rand)
    (hn : 0 ≤ n) (hk : 1 ≤ fm.Data.length) (hmap : fm.Map ≠ none ∨ n = 0) :
    ∃ (fm2 : FeatureMatrix Feat) (g2 : Rand),
      AddContrasts m fm n g = some (fm2, g2) ∧
      (fm2.Data.length : Int) = (fm.Data.length : Int) + n ∧
      fm.Data <+: fm2.Data ∧
      ∀ (i : Nat) (f : Feat), fm.Data[i]? = some f → fm2.Data[i]? = some f := by
  have hsome : ∃ out, AddContrasts m fm n g = some out := by
    rcases hmap with hmap | hn0
    · exact AddContrasts_loop_isSome m _ n.toNat fm g (by omega) le_rfl hmap
    · subst hn0
      exact ⟨_, rfl⟩
  obtain ⟨out, hout⟩ := hsome
  obtain ⟨fakes, hdata, hlen, _, _, _⟩ :=
    AddContrasts_loop_spec m fm.Data n.toNat fm g out hout (List.prefix_refl _)
  refine ⟨out.1, out.2, hout, ?_, ?_, ?_⟩
  · rw [hdata]; simp [hlen]; omega
  · rw [hdata]; exact List.prefix_append _ _
  · intro i f hi
    rw [hdata, List.getElem?_append_left (List.getElem?_eq_some.1 hi).1]
    exact hi

/-- Evaluation of C5 on the one-column dense matrix with `n = 2`. -/
theorem AddContrasts_appends_witness :
    (0 : Int) ≤ 2 ∧ 1 ≤ exampleDense.Data.length ∧
    (exampleDense.Map ≠ none ∨ (2 : Int) = 0) ∧
    ∃ (fm2 : FeatureMatrix Feature) (g2 : Rand),
      AddContrasts denseColumns exampleDense 2 exampleRand = some (fm2, g2) ∧
      (fm2.Data.length : Int) = (exampleDense.Data.length : Int) + 2 ∧
      exampleDense.Data <+: fm2.Data ∧
      ∀ (i : Nat) (f : Feature), exampleDense.Data[i]? = some f → fm2.Data[i]? = some f :=
  ⟨by decide, by decide, Or.inl (by simp [exampleDense]),
    AddContrasts_appends denseColumns exampleDense 2 exampleRand (by decide) (by decide)
      (Or.inl (by simp [exampleDense]))⟩

/-- C6, as stated, fails. AddContrasts(2) on the one-column matrix `A` draws `A`
twice: both copies are named `A:SHUFFLED`, the name index keeps position 2 and the
copy at position 1 is no longer found at its position. ContrastAll on the matrix
`A`, `A:SHUFFLED` appends a copy named `A:SHUFFLED` at position 2, which takes the
entry of the column at position 1. -/
theorem contrasts_break_MapInvariant :
    (MapInvariant denseColumns exampleDense ∧
      ∃ r, AddContrasts denseColumns exampleDense 2 exampleRand = some r ∧
        r.1.Data.map denseColumns.GetName = ["A", "A:SHUFFLED", "A:SHUFFLED"] ∧
        mapGet r.1.Map "A:SHUFFLED" = some 2 ∧
        ¬ MapInvariant denseColumns r.1) ∧
    (MapInvariant denseColumns exampleDense2 ∧
      ∃ r, ContrastAll denseColumns exampleDense2 exampleRand = some r ∧
        r.1.Data.map denseColumns.GetName
          = ["A", "A:SHUFFLED", "A:SHUFFLED", "A:SHUFFLED:SHUFFLED"] ∧
        mapGet r.1.Map "A:SHUFFLED" = some 2 ∧
        ¬ MapInvariant denseColumns r.1) := by
  refine ⟨⟨?_, _, rfl, rfl, rfl, ?_⟩, ⟨?_, _, rfl, rfl, rfl, ?_⟩⟩
  · intro i f hi
    cases i with
    | zero =>
      simp [exampleDense] at hi
      subst hi
      rfl
    | succ i => simp [exampleDense] at hi
  · intro h
    have h1 := h 1 _ rfl
    exact absurd h1 (by decide)
  · intro i f hi
    cases i with
    | zero =>
      simp [exampleDense2] at hi
      subst hi
      rfl
    | succ i =>
      cases i with
      | zero =>
        simp [exampleDense2] at hi
        subst hi
        rfl
      | succ i => simp [exampleDense2] at hi
  · intro h
    have h1 := h 1 _ rfl
    exact absurd h1 (by decide)

/-- C6, amended: starting from a matrix that satisfies the invariant, after
AddContrasts(n) or ContrastAll() the name index maps every column name to the
position of the last column bearing it; the invariant holds after the call
exactly when the names of the resulting columns are pairwise distinct. -/
theorem contrasts_keep_last_wins {Feat : Type} (m : ColumnMethods Feat)
    (fm : FeatureMatrix Feat) (n : Int) (g : Rand) (r : FeatureMatrix Feat × Rand)
    (hinv : MapInvariant m fm)
    (hrun : AddContrasts m fm n g = some r ∨ ContrastAll m fm g = some r) :
    LastWins m r.1 ∧ (MapInvariant m r.1 ↔ (r.1.Data.map m.GetName).Nodup) := by
  have hlw : LastWins m r.1 := by
    rcases hrun with hrun | hrun
    · obtain ⟨_, _, _, _, hkeep, _⟩ :=
        AddContrasts_loop_spec m fm.Data n.toNat fm g r hrun (List.prefix_refl _)
      exact hkeep hinv.lastWins
    · obtain ⟨_, _, _, _, hkeep, _⟩ :=
        ContrastAll_loop_spec m fm.Data.length 0 fm g r hrun (by omega)
      exact hkeep hinv.lastWins
  exact ⟨hlw, fun h => h.nodup, fun hnd => hlw.mapInvariant hnd⟩

/-- Evaluation of the amended C6: AddContrasts(1) on the one-column matrix `A`. -/
theorem contrasts_keep_last_wins_witness :
    MapInvariant denseColumns exampleDense ∧
    ∃ r, AddContrasts denseColumns exampleDense 1 exampleRand = some r ∧
      r.1.Data.map denseColumns.GetName = ["A", "A:SHUFFLED"] ∧
      LastWins denseColumns r.1 ∧
      (MapInvariant denseColumns r.1 ↔ (r.1.Data.map denseColumns.GetName).Nodup) :=
  have hinv : MapInvariant denseColumns exampleDense := by
    intro i f hi
    cases i with
    | zero =>
      simp [exampleDense] at hi
      subst hi
      rfl
    | succ i => simp [exampleDense] at hi
  ⟨hinv, _, rfl, rfl,
    contrasts_keep_last_wins denseColumns exampleDense 1 exampleRand _ hinv (Or.inl rfl)⟩

lemma perm_cons_eraseIdx {α : Type} :
    ∀ (xs : List α) (n : Nat) (x : α), xs[n]? = some x → (x :: xs.eraseIdx n).Perm xs := by
  intro xs
  induction xs with
  | nil => intro n x h; simp at h
  | cons y ys ih =>
    intro n x h
    cases n with
    | zero =>
      simp at h
      subst h
      simp
    | succ n =>
      simp only [List.getElem?_cons_succ] at h
      simp only [List.eraseIdx_cons_succ]
      exact (List.Perm.swap y x _).trans ((ih n x h).cons y)

/-- The modelled shuffle returns a permutation of its input. -/
lemma shuffleList_perm {α : Type} :
    ∀ (k : Nat) (xs : List α) (g : Rand), (shuffleList k xs g).1.Perm xs := by
  intro k
  induction k with
  | zero => intro xs g; exact List.Perm.refl _
  | succ k ih =>
    intro xs g
    simp only [shuffleList]
    split
    · exact List.Perm.refl _
    · rename_i i g1 _
      split
      · exact List.Perm.refl _
      · rename_i x hx
        exact ((ih (xs.eraseIdx i.toNat) g1).cons x).trans (perm_cons_eraseIdx xs _ x hx)

lemma zip_map_unzip {α β γ : Type} (f : α → γ) (l : List (α × β)) :
    (l.unzip.1.map f).zip l.unzip.2 = l.map (fun p => (f p.1, p.2)) := by
  induction l with
  | nil => rfl
  | cons p l ih => simpa using ih

lemma zip_map_eq_map_zip {α β γ : Type} (f : α → γ) (xs : List α) (ys : List β) :
    (xs.map f).zip ys = (xs.zip ys).map (fun p => (f p.1, p.2)) := by
  induction xs generalizing ys with
  | nil => rfl
  | cons x xs ih =>
    cases ys with
    | nil => rfl
    | cons y ys => simp [ih]

/-- The modelled ShuffledCopy permutes the cases of the column (value and missing
flag together) and appends `:SHUFFLED` to its name. -/
lemma Feature.ShuffledCopy_spec (f : Feature) (g : Rand) :
    (f.ShuffledCopy g).1.rows.Perm f.rows ∧
      (f.ShuffledCopy g).1.GetName = f.GetName ++ ":SHUFFLED" := by
  cases f with
  | num f =>
    refine ⟨?_, rfl⟩
    simp only [Feature.ShuffledCopy, Feature.rows]
    rw [zip_map_unzip, zip_map_eq_map_zip]
    exact (shuffleList_perm _ _ g).map _
  | cat f =>
    refine ⟨?_, rfl⟩
    simp only [Feature.ShuffledCopy, Feature.rows]
    rw [zip_map_unzip, zip_map_eq_map_zip]
    exact (shuffleList_perm _ _ g).map _

/-- C7: on a matrix of `k` dense columns whose name index is not nil (a write to
a nil map panics; without columns nothing is written) ContrastAll completes and
yields `2k` columns: columns `0..k-1` are the original columns, unchanged, and for
every `i < k` column `k + i` is the ShuffledCopy of original column `i`, whose
cases (values with their missing flags) are a permutation of those of column `i`. -/
theorem ContrastAll_doubles (fm : FeatureMatrix Feature) (g : Rand)
    (hmap : fm.Map ≠ none ∨ fm.Data = []) :
    ∃ (fm2 : FeatureMatrix Feature) (g2 : Rand),
      ContrastAll denseColumns fm g = some (fm2, g2) ∧
      fm2.Data.length = 2 * fm.Data.length ∧
      (∀ i, i < fm.Data.length → fm2.Data[i]? = fm.Data[i]?) ∧
      ∀ i, i < fm.Data.length → ∃ (orig : Feature) (gi : Rand),
        fm.Data[i]? = some orig ∧
        fm2.Data[fm.Data.length + i]? = some (orig.ShuffledCopy gi).1 ∧
        (orig.ShuffledCopy gi).1.rows.Perm orig.rows := by
  obtain ⟨out, hout⟩ := ContrastAll_loop_isSome denseColumns fm.Data.length 0 fm g
    (by omega) (hmap.imp id (fun h => by simp [h]))
  obtain ⟨fakes, hdata, hlen, _, _, hcopies⟩ :=
    ContrastAll_loop_spec denseColumns fm.Data.length 0 fm g out hout (by omega)
  refine ⟨out.1, out.2, hout, ?_, ?_, ?_⟩
  · rw [hdata]; simp [hlen]; omega
  · intro i hi
    rw [hdata, List.getElem?_append_left hi]
  · intro i hi
    obtain ⟨orig, gi, ho, hf⟩ := hcopies i hi
    refine ⟨orig, gi, by simpa using ho, ?_, (Feature.ShuffledCopy_spec orig gi).1⟩
    rw [hdata, List.getElem?_append_right (by omega)]
    simpa [denseColumns] using hf

/-- Evaluation of C7 on the dense matrix with the columns `A` and `A:SHUFFLED`. -/
theorem ContrastAll_doubles_witness :
    (exampleDense2.Map ≠ none ∨ exampleDense2.Data = []) ∧
    (ContrastAll denseColumns exampleDense2 exampleRand).map
        (fun r => r.1.Data.map Feature.rows)
      = some [[(Sum.inl (Float64.fin 1), false), (Sum.inl (Float64.fin 2), true)],
              [(Sum.inl (Float64.fin 2), true), (Sum.inl (Float64.fin 1), false)],
              [(Sum.inl (Float64.fin 1), false), (Sum.inl (Float64.fin 2), true)],
              [(Sum.inl (Float64.fin 2), true), (Sum.inl (Float64.fin 1), false)]] ∧
    ∃ (fm2 : FeatureMatrix Feature) (g2 : Rand),
      ContrastAll denseColumns exampleDense2 exampleRand = some (fm2, g2) ∧
      fm2.Data.length = 2 * exampleDense2.Data.length ∧
      (∀ i, i < exampleDense2.Data.length → fm2.Data[i]? = exampleDense2.Data[i]?) ∧
      ∀ i, i < exampleDense2.Data.length → ∃ (orig : Feature) (gi : Rand),
        exampleDense2.Data[i]? = some orig ∧
        fm2.Data[exampleDense2.Data.length + i]? = some (orig.ShuffledCopy gi).1 ∧
        (orig.ShuffledCopy gi).1.rows.Perm orig.rows :=
  ⟨Or.inl (by simp [exampleDense2]), rfl,
    ContrastAll_doubles exampleDense2 exampleRand (Or.inl (by simp [exampleDense2]))⟩

/-! ## ParseAFM -/

lemma ParseFeature.numLoop_Name (lib : StdLib) :
    ∀ (fields : List String) (f : DenseNumFeature),
      (ParseFeature.numLoop lib fields f).Name = f.Name := by
  intro fields
  induction fields with
  | nil => intro f; rfl
  | cons v rest ih =>
    intro f
    simp only [ParseFeature.numLoop]
    split <;> rw [ih]

lemma ParseFeature.catLoop_Name (lib : StdLib) :
    ∀ (fields : List String) (f : DenseCatFeature),
      (ParseFeature.catLoop lib fields f).Name = f.Name := by
  intro fields
  induction fields with
  | nil => intro f; rfl
  | cons v rest ih =>
    intro f
    simp only [ParseFeature.catLoop]
    split <;> rw [ih]

/-- ParseFeature names the column by the full first field of the record. -/
lemma ParseFeature_GetName (lib : StdLib) (name : String) (fields : List String)
    (f : Feature) (h : ParseFeature lib (name :: fields) = some f) : f.GetName = name := by
  simp only [ParseFeature] at h
  split at h
  · exact absurd h (by simp)
  · split at h
    · simp only [Option.some.injEq] at h
      subst h
      exact ParseFeature.numLoop_Name lib fields _
    · simp only [Option.some.injEq] at h
      subst h
      exact ParseFeature.catLoop_Name lib fields _

/-- ParseFeature returns a column for every record whose first field has at least
two bytes. -/
lemma ParseFeature_isSome (lib : StdLib) (name : String) (fields : List String)
    (h : 2 ≤ name.utf8ByteSize) : ∃ f, ParseFeature lib (name :: fields) = some f := by
  simp only [ParseFeature, not_lt.2 h, if_false]
  split
  · exact ⟨_, rfl⟩
  · exact ⟨_, rfl⟩

/-- The loop of ParseAFM, when it completes: it appends ParseFeature of each
record read, in order, and registers each under its first field at its position. -/
lemma ParseAFM_loop_spec (lib : StdLib) :
    ∀ (tsv : List ReadResult) (data : List Feature) (lookup : String → Option Int)
      (count : Int) (out : List Feature × (String → Option Int)),
      ParseAFM.loop lib tsv data lookup count = some out → count = (data.length : Int) →
      ∃ cols : List Feature, out.1 = data ++ cols ∧
        cols.map some = (recordsRead tsv).map (ParseFeature lib) ∧
        cols.map Feature.GetName = (recordsRead tsv).map (fun r => r.headD "") ∧
        ∀ labels : List String,
          LastWins denseColumns { Data := data, Map := some lookup, CaseLabels := labels } →
          LastWins denseColumns
            { Data := out.1, Map := some out.2, CaseLabels := labels } := by
  intro tsv
  induction tsv with
  | nil =>
    intro data lookup count out h _
    simp only [ParseAFM.loop, Option.some.injEq] at h
    subst h
    exact ⟨[], by simp, rfl, rfl, fun _ hl => hl⟩
  | cons r tsv ih =>
    intro data lookup count out h hcount
    cases r with
    | eof =>
      simp only [ParseAFM.loop, Option.some.injEq] at h
      subst h
      exact ⟨[], by simp, rfl, rfl, fun _ hl => hl⟩
    | fail record =>
      simp only [ParseAFM.loop, Option.some.injEq] at h
      subst h
      exact ⟨[], by simp, rfl, rfl, fun _ hl => hl⟩
    | ok first rest =>
      simp only [ParseAFM.loop] at h
      split at h
      · exact absurd h (by simp)
      rename_i f hf
      obtain ⟨cols, hdata, hcols, hnames, hlw⟩ :=
        ih (data ++ [f]) (mapSet lookup first count) (count + 1) out h (by simp [hcount])
      have hname : f.GetName = first := ParseFeature_GetName lib first rest f hf
      refine ⟨f :: cols, by simp [hdata], ?_, ?_, ?_⟩
      · simp [recordsRead, hf, hcols]
      · simp [recordsRead, hname, hnames]
      · intro labels hl
        apply hlw labels
        have happ : appendFake denseColumns
            { Data := data, Map := some lookup, CaseLabels := labels } f
            = some { Data := data ++ [f], Map := some (mapSet lookup first count),
                     CaseLabels := labels } := by
          simp [appendFake, denseColumns, hname, hcount]
        exact appendFake_lastWins happ hl

/-- The loop of ParseAFM completes when the first field of every record read has
at least two bytes. -/
lemma ParseAFM_loop_isSome (lib : StdLib) :
    ∀ (tsv : List ReadResult) (data : List Feature) (lookup : String → Option Int)
      (count : Int),
      (∀ r ∈ recordsRead tsv, 2 ≤ (r.headD "").utf8ByteSize) →
      ∃ out, ParseAFM.loop lib tsv data lookup count = some out := by
  intro tsv
  induction tsv with
  | nil => intro data lookup count _; exact ⟨_, rfl⟩
  | cons r tsv ih =>
    intro data lookup count hwf
    cases r with
    | eof => exact ⟨_, rfl⟩
    | fail record => exact ⟨_, rfl⟩
    | ok first rest =>
      obtain ⟨f, hf⟩ := ParseFeature_isSome lib first rest
        (by simpa using hwf (first :: rest) (by simp [recordsRead]))
      obtain ⟨out, hout⟩ := ih (data ++ [f]) (mapSet lookup first count) (count + 1)
        (fun r hr => hwf r (by simp [recordsRead, hr]))
      exact ⟨out, by simp only [ParseAFM.loop, hf]; exact hout⟩

lemma recordsRead_oks_fail (oks : List (String × List String)) (record : List String)
    (more : List ReadResult) :
    recordsRead (oks.map (fun p => ReadResult.ok p.1 p.2) ++ ReadResult.fail record :: more)
      = oks.map (fun p => p.1 :: p.2) := by
  induction oks with
  | nil => rfl
  | cons p oks ih => simp [recordsRead, ih]

/-- C8: on an input whose very first read reports end of input, `headers` is nil
and `headers[1:]` panics, so ParseAFM returns nothing, where the claim promises an
empty matrix. With a header row and no data rows it does return the empty matrix,
its case labels being the header fields after the first. -/
theorem ParseAFM_empty_input (lib : StdLib) :
    ParseAFM lib [] = none ∧
    (∀ more : List ReadResult, ParseAFM lib (ReadResult.eof :: more) = none) ∧
    ∀ (first : String) (rest : List String),
      ParseAFM lib [ReadResult.ok first rest]
        = some { Data := [], Map := some (fun _ => none), CaseLabels := rest } := by
  refine ⟨rfl, fun _ => rfl, fun first rest => ?_⟩
  simp [ParseAFM, Read, ReadResult.record, sliceFrom1, ParseAFM.loop]

/-- C9: the claim promises a matrix for every input whose header row is read, but
on a data record whose first field `A` has a single byte `record[0][0:2]` panics
in ParseFeature, and ParseAFM returns nothing. -/
theorem ParseAFM_short_first_field :
    ParseAFM exampleLib [ReadResult.ok "h" ["c1"], ReadResult.ok "A" ["1"]] = none :=
  rfl

/-- ParseAFM on the inputs that do not reach that panic: when the header row is
read and the first field of every data record read before the first end of input
or read error has at least two bytes, ParseAFM returns a matrix whose columns are exactly ParseFeature of those records,
in file order, and whose case labels are the header fields after the first; a
read error after some records leaves the columns of the records before it. -/
theorem ParseAFM_columns (lib : StdLib) (first : String) (rest : List String)
    (tsv : List ReadResult)
    (hwf : ∀ r ∈ recordsRead tsv, 2 ≤ (r.headD "").utf8ByteSize) :
    ∃ fm : FeatureMatrix Feature,
      ParseAFM lib (ReadResult.ok first rest :: tsv) = some fm ∧
      fm.Data.map some = (recordsRead tsv).map (ParseFeature lib) ∧
      fm.CaseLabels = rest ∧
      ∀ (oks : List (String × List String)) (record : List String)
        (more : List ReadResult),
        tsv = oks.map (fun p => ReadResult.ok p.1 p.2) ++ ReadResult.fail record :: more →
        fm.Data.map some = oks.map (fun p => ParseFeature lib (p.1 :: p.2)) := by
  obtain ⟨out, hout⟩ := ParseAFM_loop_isSome lib tsv [] (fun _ => none) 0 hwf
  obtain ⟨cols, hdata, hcols, _, _⟩ :=
    ParseAFM_loop_spec lib tsv [] (fun _ => none) 0 out hout (by simp)
  have hd : out.1.map some = (recordsRead tsv).map (ParseFeature lib) := by
    rw [hdata]; simpa using hcols
  refine ⟨{ Data := out.1, Map := some out.2, CaseLabels := rest }, ?_, hd, rfl, ?_⟩
  · simp [ParseAFM, Read, ReadResult.record, sliceFrom1, hout]
  · intro oks record more htsv
    rw [hd, htsv, recordsRead_oks_fail]
    simp

/-- Evaluation of `ParseAFM_columns`: a numeric and a categorical row, followed by
a read error, and a row after the error that is not read. -/
theorem ParseAFM_columns_witness :
    (∀ r ∈ recordsRead [ReadResult.ok "N:x" ["1", "2"], ReadResult.ok "C:y" ["1", "NA"],
        ReadResult.fail [], ReadResult.ok "N:z" ["1", "1"]],
      2 ≤ (r.headD "").utf8ByteSize) ∧
    ∃ fm : FeatureMatrix Feature,
      ParseAFM exampleLib [ReadResult.ok "h" ["c1", "c2"],
        ReadResult.ok "N:x" ["1", "2"], ReadResult.ok "C:y" ["1", "NA"],
        ReadResult.fail [], ReadResult.ok "N:z" ["1", "1"]] = some fm ∧
      fm.Data.map some
        = [ParseFeature exampleLib ["N:x", "1", "2"],
           ParseFeature exampleLib ["C:y", "1", "NA"]] ∧
      fm.CaseLabels = ["c1", "c2"] :=
  ⟨by decide,
    (ParseAFM_columns exampleLib "h" ["c1", "c2"]
      [ReadResult.ok "N:x" ["1", "2"], ReadResult.ok "C:y" ["1", "NA"],
        ReadResult.fail [], ReadResult.ok "N:z" ["1", "1"]] (by decide)).imp
      (fun _ h => ⟨h.1, h.2.1, h.2.2.1⟩)⟩

/-- C10, as stated, fails: two data rows with the same first field `N:x` give two
columns named `N:x`; the name index keeps position 1, and the column at position
0 is not found at its position. -/
theorem ParseAFM_duplicate_names :
    ∃ fm : FeatureMatrix Feature,
      ParseAFM exampleLib [ReadResult.ok "h" ["c1"], ReadResult.ok "N:x" ["1"],
        ReadResult.ok "N:x" ["2"]] = some fm ∧
      fm.Data.map denseColumns.GetName = ["N:x", "N:x"] ∧
      mapGet fm.Map "N:x" = some 1 ∧
      ¬ MapInvariant denseColumns fm := by
  refine ⟨_, rfl, rfl, rfl, ?_⟩
  intro h
  have h0 := h 0 _ rfl
  exact absurd h0 (by decide)

/-- C10, amended: the matrix returned by ParseAFM names each column by its data
row's full first field, and its name index maps every such name to the position
of the last column bearing it; so Map[name of Data[i]] == i holds at every
position whenever the first fields of the data rows read are pairwise distinct. -/
theorem ParseAFM_name_index (lib : StdLib) (input : List ReadResult)
    (fm : FeatureMatrix Feature) (h : ParseAFM lib input = some fm) :
    LastWins denseColumns fm ∧
    ((fm.Data.map Feature.GetName).Nodup → MapInvariant denseColumns fm) ∧
    ∀ (first : String) (rest : List String) (tsv : List ReadResult),
      input = ReadResult.ok first rest :: tsv →
      fm.Data.map Feature.GetName = (recordsRead tsv).map (fun r => r.headD "") := by
  have hempty : ∀ labels : List String, LastWins denseColumns
      ({ Data := [], Map := some (fun _ => none), CaseLabels := labels } :
        FeatureMatrix Feature) := by
    intro labels i f hi
    simp at hi
  have key : LastWins denseColumns fm ∧
      ∀ (first : String) (rest : List String) (tsv : List ReadResult),
        input = ReadResult.ok first rest :: tsv →
        fm.Data.map Feature.GetName = (recordsRead tsv).map (fun r => r.headD "") := by
    cases input with
    | nil => simp [ParseAFM, Read, ReadResult.record, sliceFrom1] at h
    | cons r tsv =>
      cases r with
      | eof => simp [ParseAFM, Read, ReadResult.record, sliceFrom1] at h
      | fail record =>
        simp only [ParseAFM, Read, ReadResult.record, Option.map_eq_some'] at h
        obtain ⟨labels, _, hfm⟩ := h
        subst hfm
        exact ⟨hempty labels, by intro first rest tsv2 h2; simp at h2⟩
      | ok first rest =>
        simp only [ParseAFM, Read, ReadResult.record, sliceFrom1] at h
        simp only [List.length_cons, Nat.le_add_left, if_true, List.drop_succ_cons,
          List.drop_zero] at h
        split at h
        · exact absurd h (by simp)
        rename_i out hout
        simp only [Option.some.injEq] at h
        subst h
        obtain ⟨cols, hdata, _, hnames, hlw⟩ :=
          ParseAFM_loop_spec lib tsv [] (fun _ => none) 0 out hout (by simp)
        refine ⟨hlw rest (hempty rest), ?_⟩
        intro first2 rest2 tsv2 h2
        simp only [List.cons.injEq, ReadResult.ok.injEq] at h2
        obtain ⟨_, htsv⟩ := h2
        subst htsv
        simp only [hdata, List.nil_append]
        exact hnames
  exact ⟨key.1, fun hnd => key.1.mapInvariant hnd, key.2⟩

/-- Evaluation of the amended C10: a numeric and a categorical row with distinct
first fields. -/
theorem ParseAFM_name_index_witness :
    ∃ fm : FeatureMatrix Feature,
      ParseAFM exampleLib [ReadResult.ok "h" ["c1"], ReadResult.ok "N:x" ["1"],
        ReadResult.ok "C:y" ["a"]] = some fm ∧
      fm.Data.map Feature.GetName = ["N:x", "C:y"] ∧
      LastWins denseColumns fm ∧
      ((fm.Data.map Feature.GetName).Nodup → MapInvariant denseColumns fm) :=
  ⟨_, rfl, rfl,
    (ParseAFM_name_index exampleLib [ReadResult.ok "h" ["c1"], ReadResult.ok "N:x" ["1"],
      ReadResult.ok "C:y" ["a"]] _ rfl).1,
    (ParseAFM_name_index exampleLib [ReadResult.ok "h" ["c1"], ReadResult.ok "N:x" ["1"],
      ReadResult.ok "C:y" ["a"]] _ rfl).2.1⟩

/-! ## ParseFeature -/

lemma utf8ByteSize_of_prefix (name : String) (h : name.data.take 2 = ['N', ':']) :
    2 ≤ name.utf8ByteSize := by
  obtain ⟨data⟩ := name
  match data, h with
  | a :: b :: tl, h =>
    simp only [String.utf8ByteSize, String.utf8ByteSize.go]
    have ha : 0 < a.utf8Size := Char.utf8Size_pos a
    have hb : 0 < b.utf8Size := Char.utf8Size_pos b
    omega

/-- C11: a record whose first field `A` has a single byte is neither parsed as a
numeric nor as a categorical column: `record[0][0:2]` panics; likewise for an
empty first field. The claim, and the comment of ParseFeature, have every first
field other than one starting with `N:` give a categorical column. -/
theorem ParseFeature_short_name_panics :
    ParseFeature exampleLib ["A", "1", "2"] = none ∧
    ParseFeature exampleLib ["", "1", "2"] = none := by
  exact ⟨rfl, rfl⟩

/-- ParseFeature on a first field of at least two bytes: a numeric column when
the field starts with `N:`, a categorical column otherwise, named by the full
first field in both cases. -/
lemma ParseFeature_kind (lib : StdLib) (name : String) (fields : List String)
    (h : 2 ≤ name.utf8ByteSize) :
    ∃ f, ParseFeature lib (name :: fields) = some f ∧ f.GetName = name ∧
      ((∃ n, f = Feature.num n) ↔ name.data.take 2 = ['N', ':']) := by
  obtain ⟨f, hf⟩ := ParseFeature_isSome lib name fields h
  refine ⟨f, hf, ParseFeature_GetName lib name fields f hf, ?_⟩
  simp only [ParseFeature, not_lt.2 h, if_false] at hf
  split at hf
  · rename_i hp
    simp only [Option.some.injEq] at hf
    subst hf
    exact ⟨fun _ => hp, fun _ => ⟨_, rfl⟩⟩
  · rename_i hp
    simp only [Option.some.injEq] at hf
    subst hf
    exact ⟨fun ⟨n, hn⟩ => (by cases hn), fun h2 => absurd h2 hp⟩

lemma ParseFeature.numLoop_spec (lib : StdLib) :
    ∀ (fields : List String) (f : DenseNumFeature),
      ParseFeature.numLoop lib fields f =
        { NumData := f.NumData ++ fields.map (fun s => (lib.ParseFloat s).getD (Float64.fin 0)),
          Missing := f.Missing ++ fields.map (fun s => (lib.ParseFloat s).isNone),
          Name := f.Name } := by
  intro fields
  induction fields with
  | nil => intro f; simp [ParseFeature.numLoop]
  | cons s rest ih =>
    intro f
    simp only [ParseFeature.numLoop]
    split
    · rename_i hs
      rw [ih]
      simp [hs]
    · rename_i v hs
      rw [ih]
      simp [hs]

/-- C12: for a record whose first field starts with `N:`, ParseFeature returns
the numeric column named by the first field in which case `i` is missing exactly
when field `i+1` fails ParseFloat, holds the parsed value when it does not and
0.0 when it does; no cell stops the parse, so there is one case per field. -/
theorem ParseFeature_numeric (lib : StdLib) (name : String) (fields : List String)
    (hN : name.data.take 2 = ['N', ':']) :
    ParseFeature lib (name :: fields) = some (Feature.num
      { NumData := fields.map (fun s => (lib.ParseFloat s).getD (Float64.fin 0)),
        Missing := fields.map (fun s => (lib.ParseFloat s).isNone),
        Name := name }) := by
  have h2 := utf8ByteSize_of_prefix name hN
  simp only [ParseFeature, not_lt.2 h2, if_false, hN, if_true]
  rw [ParseFeature.numLoop_spec]
  simp

/-- Evaluation of C12: the second cell is not a number. -/
theorem ParseFeature_numeric_witness :
    ("N:x".data.take 2 = ['N', ':']) ∧
    ParseFeature exampleLib ["N:x", "1", "abc", "2"] = some (Feature.num
      { NumData := [Float64.fin 1, Float64.fin 0, Float64.fin 2],
        Missing := [false, true, false],
        Name := "N:x" }) :=
  ⟨by decide, ParseFeature_numeric exampleLib "N:x" ["1", "abc", "2"] (by decide)⟩

lemma catMissing_iff (lib : StdLib) (v : String) :
    catMissing lib v = true ↔
      (lib.ToLower v = "?" ∨ lib.ToLower v = "nan" ∨ lib.ToLower v = "na" ∨
        lib.ToLower v = "null") := by
  simp [catMissing]

/-- The loop of the categorical case: the mask marks the fields that pass the
missing test, the encoder has seen the other fields only, in order, and each case
holds 0 or the code CatToNum returned for its text when its turn came. -/
lemma ParseFeature.catLoop_spec (lib : StdLib) :
    ∀ (fields : List String) (f : DenseCatFeature),
      (ParseFeature.catLoop lib fields f).Missing
          = f.Missing ++ fields.map (catMissing lib) ∧
      (ParseFeature.catLoop lib fields f).Cats
          = f.Cats.encodeAll (fields.filter (fun v => !catMissing lib v)) ∧
      (ParseFeature.catLoop lib fields f).Flag = f.Flag ∧
      (ParseFeature.catLoop lib fields f).CatData.length
          = f.CatData.length + fields.length ∧
      (∀ j, j < f.CatData.length →
        (ParseFeature.catLoop lib fields f).CatData[j]? = f.CatData[j]?) ∧
      ∀ (i : Nat) (v : String), fields[i]? = some v →
        (ParseFeature.catLoop lib fields f).CatData[f.CatData.length + i]? =
          some (if catMissing lib v then 0
            else ((f.Cats.encodeAll
              ((fields.take i).filter (fun v => !catMissing lib v))).CatToNum v).1) := by
  intro fields
  induction fields with
  | nil =>
    intro f
    simp [ParseFeature.catLoop, CatMap.encodeAll]
  | cons w rest ih =>
    intro f
    by_cases hw : catMissing lib w = true
    · have hw2 := (catMissing_iff lib w).1 hw
      obtain ⟨h1, h2, h3, h4, h5, h6⟩ := ih
        { f with CatData := f.CatData ++ [0], Missing := f.Missing ++ [true] }
      simp only [ParseFeature.catLoop, hw2, if_true]
      refine ⟨by simp [h1, hw], by simp [h2, hw], h3, by simp [h4]; omega, ?_, ?_⟩
      · intro j hj
        rw [h5 j (by simp; omega)]
        simp [List.getElem?_append_left hj]
      · intro i v hv
        cases i with
        | zero =>
          simp only [List.getElem?_cons_zero, Option.some.injEq] at hv
          subst hv
          have h0 := h5 f.CatData.length (by simp)
          simp only [Nat.add_zero]
          rw [h0]
          simp [hw]
        | succ i =>
          simp only [List.getElem?_cons_succ] at hv
          have := h6 i v hv
          simp only [List.length_append, List.length_singleton] at this
          rw [show f.CatData.length + (i + 1) = f.CatData.length + 1 + i by omega, this]
          simp [List.take_succ_cons, List.filter_cons, hw]
    · have hw2 : ¬ (lib.ToLower w = "?" ∨ lib.ToLower w = "nan" ∨ lib.ToLower w = "na" ∨
          lib.ToLower w = "null") := fun h => hw ((catMissing_iff lib w).2 h)
      have hwf : catMissing lib w = false := by simpa using hw
      obtain ⟨h1, h2, h3, h4, h5, h6⟩ := ih
        { f with Cats := (f.Cats.CatToNum w).2,
                 CatData := f.CatData ++ [(f.Cats.CatToNum w).1],
                 Missing := f.Missing ++ [false] }
      simp only [ParseFeature.catLoop, hw2, if_false]
      refine ⟨by simp [h1, hwf], by simp [h2, hwf, CatMap.encodeAll], h3,
        by simp [h4]; omega, ?_, ?_⟩
      · intro j hj
        rw [h5 j (by simp; omega)]
        simp [List.getElem?_append_left hj]
      · intro i v hv
        cases i with
        | zero =>
          simp only [List.getElem?_cons_zero, Option.some.injEq] at hv
          subst hv
          have h0 := h5 f.CatData.length (by simp)
          simp only [Nat.add_zero]
          rw [h0]
          simp [hwf, CatMap.encodeAll]
        | succ i =>
          simp only [List.getElem?_cons_succ] at hv
          have := h6 i v hv
          simp only [List.length_append, List.length_singleton] at this
          rw [show f.CatData.length + (i + 1) = f.CatData.length + 1 + i by omega, this]
          simp [List.take_succ_cons, List.filter_cons, hwf, CatMap.encodeAll]

/-- C13: for a record whose first field does not start with `N:`, the
categorical column ParseFeature returns marks case `i` missing exactly when field
`i+1`, lower-cased, is one of `?`, `nan`, `na`, `null`; a missing case holds code
0 and its text is not passed to the encoder (the encoder has seen exactly the
other fields, in order); any other case holds the code CatToNum returned for the
field's original text. -/
theorem ParseFeature_categorical (lib : StdLib) (name : String) (fields : List String)
    (hN : ¬ name.data.take 2 = ['N', ':']) (h2 : 2 ≤ name.utf8ByteSize) :
    ∃ f : DenseCatFeature,
      ParseFeature lib (name :: fields) = some (Feature.cat f) ∧
      f.Name = name ∧
      f.Missing = fields.map (catMissing lib) ∧
      f.Cats = CatMap.encodeAll { Map := fun _ => none, Back := [] }
        (fields.filter (fun v => !catMissing lib v)) ∧
      f.CatData.length = fields.length ∧
      ∀ (i : Nat) (v : String), fields[i]? = some v →
        f.CatData[i]? = some (if catMissing lib v then 0
          else ((CatMap.encodeAll { Map := fun _ => none, Back := [] }
            ((fields.take i).filter (fun v => !catMissing lib v))).CatToNum v).1) := by
  obtain ⟨h1, hc, _, h4, _, h6⟩ := ParseFeature.catLoop_spec lib fields
    { Cats := { Map := fun _ => none, Back := [] }, CatData := [], Missing := [],
      Name := name, Flag := false }
  refine ⟨_, ?_, ParseFeature.catLoop_Name lib fields _, by simpa using h1, hc,
    by simpa using h4, ?_⟩
  · simp only [ParseFeature, not_lt.2 h2, if_false, hN]
  · intro i v hv
    simpa using h6 i v hv

/-- Evaluation of C13: the second cell is `NA`, the first and fourth cells carry
the same text. -/
theorem ParseFeature_categorical_witness :
    (¬ "C:y".data.take 2 = ['N', ':']) ∧ 2 ≤ "C:y".utf8ByteSize ∧
    (ParseFeature exampleLib ["C:y", "a", "NA", "b", "a"]).map Feature.rows
      = some [(Sum.inr 0, false), (Sum.inr 0, true), (Sum.inr 1, false),
              (Sum.inr 0, false)] ∧
    ∃ f : DenseCatFeature,
      ParseFeature exampleLib ["C:y", "a", "NA", "b", "a"] = some (Feature.cat f) ∧
      f.Name = "C:y" ∧
      f.Missing = ["a", "NA", "b", "a"].map (catMissing exampleLib) ∧
      f.Cats = CatMap.encodeAll { Map := fun _ => none, Back := [] }
        (["a", "NA", "b", "a"].filter (fun v => !catMissing exampleLib v)) ∧
      f.CatData.length = ["a", "NA", "b", "a"].length ∧
      ∀ (i : Nat) (v : String), ["a", "NA", "b", "a"][i]? = some v →
        f.CatData[i]? = some (if catMissing exampleLib v then 0
          else ((CatMap.encodeAll { Map := fun _ => none, Back := [] }
            ((["a", "NA", "b", "a"].take i).filter
              (fun v => !catMissing exampleLib v))).CatToNum v).1) :=
  ⟨by decide, by decide, rfl,
    ParseFeature_categorical exampleLib "C:y" ["a", "NA", "b", "a"] (by decide) (by decide)⟩

lemma ParseFeature_lengths (lib : StdLib) (record : List String) (f : Feature)
    (h : ParseFeature lib record = some f) :
    f.valueCount = record.length - 1 ∧ f.mask.length = record.length - 1 := by
  cases record with
  | nil => simp [ParseFeature] at h
  | cons name fields =>
    simp only [ParseFeature] at h
    split at h
    · exact absurd h (by simp)
    · split at h
      · simp only [Option.some.injEq] at h
        subst h
        rw [ParseFeature.numLoop_spec]
        simp [Feature.valueCount, Feature.mask]
      · simp only [Option.some.injEq] at h
        subst h
        obtain ⟨h1, _, _, h4, _, _⟩ := ParseFeature.catLoop_spec lib fields
          { Cats := { Map := fun _ => none, Back := [] }, CatData := [], Missing := [],
            Name := name, Flag := false }
        simp only [Feature.valueCount, Feature.mask, h4, h1]
        simp

/-- C14: every column the loader produces has as many values as mask entries:
a column that ParseFeature returns for a record of `m` fields has `m - 1` values
and a mask of length `m - 1`, and, the data records read having as many fields as
the header row (encoding/csv rejects any other record with an error), every
column of the matrix ParseAFM returns has as many values and mask entries as
there are case labels. -/
theorem loader_column_lengths (lib : StdLib) :
    (∀ (record : List String) (f : Feature), ParseFeature lib record = some f →
      f.valueCount = record.length - 1 ∧ f.mask.length = record.length - 1) ∧
    ∀ (input : List ReadResult) (fm : FeatureMatrix Feature),
      ParseAFM lib input = some fm →
      (∀ (first : String) (rest : List String) (tsv : List ReadResult),
        input = ReadResult.ok first rest :: tsv →
        ∀ r ∈ recordsRead tsv, r.length = (first :: rest).length) →
      ∀ f ∈ fm.Data,
        f.valueCount = fm.CaseLabels.length ∧ f.mask.length = fm.CaseLabels.length := by
  refine ⟨ParseFeature_lengths lib, ?_⟩
  intro input fm h hcsv f hf
  cases input with
  | nil => simp [ParseAFM, Read, ReadResult.record, sliceFrom1] at h
  | cons r tsv =>
    cases r with
    | eof => simp [ParseAFM, Read, ReadResult.record, sliceFrom1] at h
    | fail record =>
      simp only [ParseAFM, Read, ReadResult.record, Option.map_eq_some'] at h
      obtain ⟨labels, _, hfm⟩ := h
      subst hfm
      simp at hf
    | ok first rest =>
      simp only [ParseAFM, Read, ReadResult.record, sliceFrom1] at h
      simp only [List.length_cons, Nat.le_add_left, if_true, List.drop_succ_cons,
        List.drop_zero] at h
      split at h
      · exact absurd h (by simp)
      rename_i out hout
      simp only [Option.some.injEq] at h
      subst h
      obtain ⟨cols, hdata, hcols, _, _⟩ :=
        ParseAFM_loop_spec lib tsv [] (fun _ => none) 0 out hout (by simp)
      simp only [hdata, List.nil_append] at hf
      have hmem : some f ∈ (recordsRead tsv).map (ParseFeature lib) := by
        rw [← hcols]
        exact List.mem_map_of_mem _ hf
      obtain ⟨r, hr, hrf⟩ := List.mem_map.1 hmem
      have hlen := hcsv first rest tsv rfl r hr
      have := ParseFeature_lengths lib r f hrf
      simp only [List.length_cons] at hlen
      simp only [this, hlen]
      simp

/-- Evaluation of C14: a header with two case labels and two data rows. -/
theorem loader_column_lengths_witness :
    ∃ fm : FeatureMatrix Feature,
      ParseAFM exampleLib [ReadResult.ok "h" ["c1", "c2"],
        ReadResult.ok "N:x" ["1", "abc"], ReadResult.ok "C:y" ["a", "NA"]] = some fm ∧
      fm.Data.map Feature.valueCount = [2, 2] ∧
      fm.CaseLabels.length = 2 ∧
      ∀ f ∈ fm.Data,
        f.valueCount = fm.CaseLabels.length ∧ f.mask.length = fm.CaseLabels.length :=
  ⟨_, rfl, rfl, rfl,
    (loader_column_lengths exampleLib).2
      [ReadResult.ok "h" ["c1", "c2"], ReadResult.ok "N:x" ["1", "abc"],
        ReadResult.ok "C:y" ["a", "NA"]] _ rfl
      (by
        intro first rest tsv h r hr
        simp only [List.cons.injEq, ReadResult.ok.injEq] at h
        obtain ⟨⟨h1, h2⟩, h3⟩ := h
        subst h1 h2 h3
        simp only [recordsRead, List.mem_cons, List.mem_nil_iff, or_false] at hr
        rcases hr with rfl | rfl <;> rfl)⟩

/-! ## BestSplitter: safety, call order, independence of the candidate order -/

/-- C15: when every candidate index is in range of the column sequence,
BestSplitter returns a result; DecodeSplit is reached only with a decrease above
the floor, and then the best-column pointer is not nil and points to a candidate
column inside the column sequence. -/
theorem BestSplitter_total {Feat Tgt R Split Splitter : Type}
    (m : SearchMethods Feat Tgt R Split Splitter) (fm : FeatureMatrix Feat)
    (target : Tgt) (cases : List Int) (candidates : List Int)
    (allocs : BestSplitAllocs R)
    (hin : ∀ i ∈ candidates, 0 ≤ i ∧ i < fm.Data.length) :
    ∃ (st : LoopState R Split) (s : Option Splitter) (d : Float64),
      BestSplitter.loop m fm target (BestSplitter.init m target cases allocs).1 candidates
        (BestSplitter.init m target cases allocs).2 = some st ∧
      BestSplitter m fm target cases candidates allocs = some (s, d) ∧
      (st.impurityDecrease.gt minImp = true →
        ∃ (i : Int) (f : Feat), st.bestF = some i ∧ i ∈ candidates ∧
          index? fm.Data i = some f ∧ s = some (m.DecodeSplit f st.bestSplit)) ∧
      (st.impurityDecrease.gt minImp = false → s = none) := by
  obtain ⟨tr, htr⟩ := BestSplitter.evals_isSome m fm target cases candidates allocs hin
  have hcols := BestSplitter.evalsFrom_columns m fm target _ candidates _ _ tr htr
  obtain ⟨st2, hst2, hch⟩ := BestSplitter.loop_char m fm target
    (BestSplitter.init m target cases allocs : Float64 × LoopState R Split).1 candidates
    (BestSplitter.init m target cases allocs).2 tr htr
    (by simp [BestSplitter.init, minImp]) (by simp [BestSplitter.init, Float64.gt_irrefl])
  rcases hch with ⟨_, hI, _, _⟩ | ⟨j, e, hj, hF, hI, hS, hgt, _, _⟩
  · have hI2 : st2.impurityDecrease = minImp := hI
    refine ⟨st2, none, minImp, hst2, ?_, ?_, fun _ => rfl⟩
    · simp only [BestSplitter, hst2, hI2, Float64.gt_irrefl]
      simp
    · intro h
      rw [hI2, Float64.gt_irrefl] at h
      exact absurd h (by simp)
  · have hmem : e ∈ tr := List.getElem?_mem hj
    obtain ⟨f, hf⟩ := hcols.2 e hmem
    have hgt2 : e.inerImp.gt minImp = true := hgt
    have hcand : e.column ∈ candidates := by
      rw [← hcols.1]
      exact List.mem_map_of_mem _ hmem
    refine ⟨st2, some (m.DecodeSplit f st2.bestSplit), e.inerImp, hst2, ?_, ?_, ?_⟩
    · simp only [BestSplitter, hst2, hI, hgt2, hF, hf]
      simp
    · intro _
      exact ⟨e.column, f, hF, hcand, hf, rfl⟩
    · intro h
      rw [hI, hgt2] at h
      exact absurd h (by simp)

/-- Evaluation of C15 on the example matrix. -/
theorem BestSplitter_total_witness :
    (∀ i ∈ ([0, 1, 2, 3] : List Int), 0 ≤ i ∧ i < exampleMatrix.Data.length) ∧
    ∃ (st : LoopState Unit Int) (s : Option Int) (d : Float64),
      BestSplitter.loop exampleSearch exampleMatrix ()
        (BestSplitter.init exampleSearch () [0, 1, 2] { Counter := [], Rest := () }).1
        [0, 1, 2, 3]
        (BestSplitter.init exampleSearch () [0, 1, 2] { Counter := [], Rest := () }).2
          = some st ∧
      BestSplitter exampleSearch exampleMatrix () [0, 1, 2] [0, 1, 2, 3]
        { Counter := [], Rest := () } = some (s, d) ∧
      (st.impurityDecrease.gt minImp = true →
        ∃ (i : Int) (f : ExampleColumn), st.bestF = some i ∧ i ∈ ([0, 1, 2, 3] : List Int) ∧
          index? exampleMatrix.Data i = some f ∧
          s = some (exampleSearch.DecodeSplit f st.bestSplit)) ∧
      (st.impurityDecrease.gt minImp = false → s = none) :=
  ⟨by decide,
    BestSplitter_total exampleSearch exampleMatrix () [0, 1, 2] [0, 1, 2, 3]
      { Counter := [], Rest := () } (by decide)⟩

lemma BestSplitter.memAfter_cons {Feat Tgt R Split Splitter : Type}
    (m : SearchMethods Feat Tgt R Split Splitter) (fm : FeatureMatrix Feat)
    (target : Tgt) (p : Float64) (i : Int) (rest : List Int) (f : Feat)
    (mem : List Int × BestSplitAllocs R) (hf : index? fm.Data i = some f) :
    BestSplitter.memAfter m fm target p (i :: rest) mem
      = BestSplitter.memAfter m fm target p rest (m.BestSplit f target mem.1 p mem.2).2 := by
  simp [BestSplitter.memAfter, hf]

/-- The loop of BestSplitter calls BestSplit once per entry of the candidate
list, in list order, each call on the memory left by the calls before it. -/
lemma BestSplitter.loop_calls {Feat Tgt R Split Splitter : Type}
    (m : SearchMethods Feat Tgt R Split Splitter) (fm : FeatureMatrix Feat)
    (target : Tgt) (p : Float64) :
    ∀ (cands : List Int) (st : LoopState R Split) (tr : List (Eval Split)),
      BestSplitter.evalsFrom m fm target p cands st.cases st.allocs = some tr →
      ∃ st2, BestSplitter.loop m fm target p cands st = some st2 ∧
        (st2.cases, st2.allocs)
          = BestSplitter.memAfter m fm target p cands (st.cases, st.allocs) ∧
        tr.length = cands.length ∧
        ∀ (j : Nat) (i : Int), cands[j]? = some i →
          ∃ f, index? fm.Data i = some f ∧
            tr[j]? = some
              { column := i,
                split := (m.BestSplit f target
                  (BestSplitter.memAfter m fm target p (cands.take j) (st.cases, st.allocs)).1 p
                  (BestSplitter.memAfter m fm target p (cands.take j) (st.cases, st.allocs)).2).1.1,
                inerImp := (m.BestSplit f target
                  (BestSplitter.memAfter m fm target p (cands.take j) (st.cases, st.allocs)).1 p
                  (BestSplitter.memAfter m fm target p (cands.take j) (st.cases, st.allocs)).2).1.2 } := by
  intro cands
  induction cands with
  | nil =>
    intro st tr h
    simp [BestSplitter.evalsFrom] at h
    subst h
    exact ⟨st, rfl, rfl, rfl, by intro j i hj; simp at hj⟩
  | cons i rest ih =>
    intro st tr h
    simp only [BestSplitter.evalsFrom] at h
    split at h
    · exact absurd h (by simp)
    rename_i f hf
    split at h
    · exact absurd h (by simp)
    rename_i tr2 htr2
    simp only [Option.some.injEq] at h
    subst h
    have key : ∀ st1 : LoopState R Split,
        st1.cases = (m.BestSplit f target st.cases p st.allocs).2.1 →
        st1.allocs = (m.BestSplit f target st.cases p st.allocs).2.2 →
        ∃ st2, BestSplitter.loop m fm target p rest st1 = some st2 ∧
          (st2.cases, st2.allocs)
            = BestSplitter.memAfter m fm target p (i :: rest) (st.cases, st.allocs) ∧
          ∀ (j : Nat) (i2 : Int), rest[j]? = some i2 →
            ∃ f2, index? fm.Data i2 = some f2 ∧
              tr2[j]? = some
                { column := i2,
                  split := (m.BestSplit f2 target
                    (BestSplitter.memAfter m fm target p (i :: rest.take j)
                      (st.cases, st.allocs)).1 p
                    (BestSplitter.memAfter m fm target p (i :: rest.take j)
                      (st.cases, st.allocs)).2).1.1,
                  inerImp := (m.BestSplit f2 target
                    (BestSplitter.memAfter m fm target p (i :: rest.take j)
                      (st.cases, st.allocs)).1 p
                    (BestSplitter.memAfter m fm target p (i :: rest.take j)
                      (st.cases, st.allocs)).2).1.2 } := by
      intro st1 hc ha
      obtain ⟨st2, hst2, hmem, _, hcalls⟩ := ih st1 tr2 (by rw [hc, ha]; exact htr2)
      refine ⟨st2, hst2, ?_, ?_⟩
      · rw [hmem, BestSplitter.memAfter_cons m fm target p i rest f _ hf, hc, ha]
      · intro j i2 hj
        obtain ⟨f2, hf2, hcall⟩ := hcalls j i2 hj
        refine ⟨f2, hf2, ?_⟩
        rw [hcall, BestSplitter.memAfter_cons m fm target p i (rest.take j) f _ hf, hc, ha]
    have hlen : tr2.length = rest.length :=
      by
        have := (BestSplitter.evalsFrom_columns m fm target p rest _ _ tr2 htr2).1
        rw [← this]; simp
    simp only [BestSplitter.loop, hf]
    have fin : ∀ st1 : LoopState R Split,
        st1.cases = (m.BestSplit f target st.cases p st.allocs).2.1 →
        st1.allocs = (m.BestSplit f target st.cases p st.allocs).2.2 →
        ∃ st2, BestSplitter.loop m fm target p rest st1 = some st2 ∧
          (st2.cases, st2.allocs)
            = BestSplitter.memAfter m fm target p (i :: rest) (st.cases, st.allocs) ∧
          ({ column := i, split := (m.BestSplit f target st.cases p st.allocs).1.1,
             inerImp := (m.BestSplit f target st.cases p st.allocs).1.2 } :: tr2).length
            = (i :: rest).length ∧
          ∀ (j : Nat) (i2 : Int), (i :: rest)[j]? = some i2 →
            ∃ f2, index? fm.Data i2 = some f2 ∧
              ({ column := i, split := (m.BestSplit f target st.cases p st.allocs).1.1,
                 inerImp := (m.BestSplit f target st.cases p st.allocs).1.2 } :: tr2)[j]? = some
                { column := i2,
                  split := (m.BestSplit f2 target
                    (BestSplitter.memAfter m fm target p ((i :: rest).take j)
                      (st.cases, st.allocs)).1 p
                    (BestSplitter.memAfter m fm target p ((i :: rest).take j)
                      (st.cases, st.allocs)).2).1.1,
                  inerImp := (m.BestSplit f2 target
                    (BestSplitter.memAfter m fm target p ((i :: rest).take j)
                      (st.cases, st.allocs)).1 p
                    (BestSplitter.memAfter m fm target p ((i :: rest).take j)
                      (st.cases, st.allocs)).2).1.2 } := by
      intro st1 hc ha
      obtain ⟨st2, hst2, hmem, hcalls⟩ := key st1 hc ha
      refine ⟨st2, hst2, hmem, by simp [hlen], ?_⟩
      intro j i2 hj
      cases j with
      | zero =>
        simp only [List.getElem?_cons_zero, Option.some.injEq] at hj
        subst hj
        exact ⟨f, hf, by simp [BestSplitter.memAfter]⟩
      | succ j =>
        simp only [List.getElem?_cons_succ] at hj
        obtain ⟨f2, hf2, hcall⟩ := hcalls j i2 hj
        exact ⟨f2, hf2, by simpa using hcall⟩
    split
    · exact fin _ rfl rfl
    · exact fin _ rfl rfl

/-- C17: BestSplitter computes the parent impurity by one call of
`target.Impurity` on the case set and the counter of the allocations, before any
candidate; then BestSplit is called once per entry of the candidate list, in list
order, each time with that parent impurity, the same target, and the case set and
allocations as the calls before it left them. The trace has one entry per
candidate, entry `j` is the result of that call, and the memory at the end of the
loop is the one left by the one Impurity call followed by these calls. -/
theorem BestSplitter_call_order {Feat Tgt R Split Splitter : Type}
    (m : SearchMethods Feat Tgt R Split Splitter) (fm : FeatureMatrix Feat)
    (target : Tgt) (cases : List Int) (candidates : List Int)
    (allocs : BestSplitAllocs R)
    (hin : ∀ i ∈ candidates, 0 ≤ i ∧ i < fm.Data.length) :
    ∃ (tr : List (Eval Split)) (st : LoopState R Split),
      BestSplitter.evals m fm target cases candidates allocs = some tr ∧
      BestSplitter.loop m fm target (BestSplitter.init m target cases allocs).1 candidates
        (BestSplitter.init m target cases allocs).2 = some st ∧
      tr.length = candidates.length ∧
      (st.cases, st.allocs)
        = BestSplitter.memAfter m fm target (m.Impurity target cases allocs.Counter).1
            candidates
            ((m.Impurity target cases allocs.Counter).2.1,
              { allocs with Counter := (m.Impurity target cases allocs.Counter).2.2 }) ∧
      ∀ (j : Nat) (i : Int), candidates[j]? = some i →
        ∃ f, index? fm.Data i = some f ∧
          tr[j]? = some
            { column := i,
              split := (m.BestSplit f target
                (BestSplitter.memAfter m fm target (m.Impurity target cases allocs.Counter).1
                  (candidates.take j)
                  ((m.Impurity target cases allocs.Counter).2.1,
                    { allocs with
                      Counter := (m.Impurity target cases allocs.Counter).2.2 })).1
                (m.Impurity target cases allocs.Counter).1
                (BestSplitter.memAfter m fm target (m.Impurity target cases allocs.Counter).1
                  (candidates.take j)
                  ((m.Impurity target cases allocs.Counter).2.1,
                    { allocs with
                      Counter := (m.Impurity target cases allocs.Counter).2.2 })).2).1.1,
              inerImp := (m.BestSplit f target
                (BestSplitter.memAfter m fm target (m.Impurity target cases allocs.Counter).1
                  (candidates.take j)
                  ((m.Impurity target cases allocs.Counter).2.1,
                    { allocs with
                      Counter := (m.Impurity target cases allocs.Counter).2.2 })).1
                (m.Impurity target cases allocs.Counter).1
                (BestSplitter.memAfter m fm target (m.Impurity target cases allocs.Counter).1
                  (candidates.take j)
                  ((m.Impurity target cases allocs.Counter).2.1,
                    { allocs with
                      Counter := (m.Impurity target cases allocs.Counter).2.2 })).2).1.2 } := by
  obtain ⟨tr, htr⟩ := BestSplitter.evals_isSome m fm target cases candidates allocs hin
  obtain ⟨st, hst, hmem, hlen, hcalls⟩ := BestSplitter.loop_calls m fm target
    (BestSplitter.init m target cases allocs : Float64 × LoopState R Split).1 candidates
    (BestSplitter.init m target cases allocs).2 tr htr
  exact ⟨tr, st, htr, hst, hlen, hmem, hcalls⟩

/-- Evaluation of C17 with methods that mark memory at every call: after the
candidates 1, 0, 1 the counter carries one mark of Impurity and the cases carry
the marks of columns 1, 0, 1 in this order. -/
theorem BestSplitter_call_order_witness :
    (∀ i ∈ ([1, 0, 1] : List Int), 0 ≤ i ∧ i < exampleMatrix.Data.length) ∧
    (BestSplitter.loop exampleMarking exampleMatrix ()
        (BestSplitter.init exampleMarking () [0, 1, 2] { Counter := [], Rest := () }).1
        [1, 0, 1]
        (BestSplitter.init exampleMarking () [0, 1, 2]
          { Counter := [], Rest := () }).2).map
      (fun st => (st.cases, st.allocs.Counter)) = some ([0, 1, 2, 2, 0, 2], [1]) ∧
    ∃ (tr : List (Eval Int)) (st : LoopState Unit Int),
      BestSplitter.evals exampleMarking exampleMatrix () [0, 1, 2] [1, 0, 1]
        { Counter := [], Rest := () } = some tr ∧
      BestSplitter.loop exampleMarking exampleMatrix ()
        (BestSplitter.init exampleMarking () [0, 1, 2] { Counter := [], Rest := () }).1
        [1, 0, 1]
        (BestSplitter.init exampleMarking () [0, 1, 2] { Counter := [], Rest := () }).2
          = some st ∧
      tr.length = ([1, 0, 1] : List Int).length :=
  ⟨by decide, by decide,
    (BestSplitter_call_order exampleMarking exampleMatrix () [0, 1, 2] [1, 0, 1]
      { Counter := [], Rest := () } (by decide)).imp
      (fun _ h => h.imp (fun _ h2 => ⟨h2.1, h2.2.1, h2.2.2.1⟩))⟩

/-- With the decrease of every candidate column unaffected by the calls made
before its own, every entry of the trace carries the decrease its column reports
on the memory BestSplitter starts from. -/
lemma BestSplitter.evals_entry_decrease {Feat Tgt R Split Splitter : Type}
    (m : SearchMethods Feat Tgt R Split Splitter) (fm : FeatureMatrix Feat)
    (target : Tgt) (cases : List Int) (cands : List Int) (allocs : BestSplitAllocs R)
    (hfixed : ∀ (pre : List Int) (i : Int) (f : Feat), (∀ x ∈ pre, x ∈ cands) → i ∈ cands →
      index? fm.Data i = some f →
      BestSplitter.decreaseAfter m fm target cases allocs pre f
        = BestSplitter.decreaseAfter m fm target cases allocs [] f)
    (tr : List (Eval Split))
    (htr : BestSplitter.evals m fm target cases cands allocs = some tr) :
    ∀ e ∈ tr, e.column ∈ cands ∧ ∃ f, index? fm.Data e.column = some f ∧
      e.inerImp = BestSplitter.decreaseAfter m fm target cases allocs [] f := by
  obtain ⟨st, _, _, hlen, hcalls⟩ := BestSplitter.loop_calls m fm target
    (BestSplitter.init m target cases allocs : Float64 × LoopState R Split).1 cands
    (BestSplitter.init m target cases allocs).2 tr htr
  intro e he
  obtain ⟨j, hj⟩ := List.mem_iff_getElem?.1 he
  have hjlt : j < cands.length := by
    rw [← hlen]; exact (List.getElem?_eq_some.1 hj).1
  obtain ⟨f, hf, hcall⟩ := hcalls j cands[j] (List.getElem?_eq_getElem hjlt)
  rw [hj] at hcall
  simp only [Option.some.injEq] at hcall
  have hmem : cands[j] ∈ cands := List.getElem_mem hjlt
  subst hcall
  refine ⟨hmem, f, hf, ?_⟩
  exact hfixed (cands.take j) cands[j] f (fun x hx => List.mem_of_mem_take hx) hmem hf

/-- C20: with the impurity decrease that each candidate column's BestSplit
reports fixed for the given target, cases and parent impurity (it is the same
after any BestSplit calls of candidates as before them), two candidate lists
containing the same in-range column indices give the same impurityDecrease and
agree on whether a splitter is returned, whatever the order and the
multiplicities of the candidates. -/
theorem BestSplitter_candidate_set {Feat Tgt R Split Splitter : Type}
    (m : SearchMethods Feat Tgt R Split Splitter) (fm : FeatureMatrix Feat)
    (target : Tgt) (cases : List Int) (c1 c2 : List Int) (allocs : BestSplitAllocs R)
    (hin : ∀ i ∈ c1, 0 ≤ i ∧ i < fm.Data.length)
    (hset : ∀ i, i ∈ c1 ↔ i ∈ c2)
    (hfixed : ∀ (pre : List Int) (i : Int) (f : Feat), (∀ x ∈ pre, x ∈ c1) → i ∈ c1 →
      index? fm.Data i = some f →
      BestSplitter.decreaseAfter m fm target cases allocs pre f
        = BestSplitter.decreaseAfter m fm target cases allocs [] f) :
    ∃ (s1 s2 : Option Splitter) (d : Float64),
      BestSplitter m fm target cases c1 allocs = some (s1, d) ∧
      BestSplitter m fm target cases c2 allocs = some (s2, d) ∧
      (s1 = none ↔ s2 = none) := by
  obtain ⟨tr1, h1⟩ := BestSplitter.evals_isSome m fm target cases c1 allocs hin
  obtain ⟨tr2, h2⟩ := BestSplitter.evals_isSome m fm target cases c2 allocs
    (fun i hi => hin i ((hset i).2 hi))
  have hc1 := BestSplitter.evals_columns m fm target cases c1 allocs tr1 h1
  have hc2 := BestSplitter.evals_columns m fm target cases c2 allocs tr2 h2
  have hd1 := BestSplitter.evals_entry_decrease m fm target cases c1 allocs hfixed tr1 h1
  have hd2 := BestSplitter.evals_entry_decrease m fm target cases c2 allocs
    (fun pre i f hpre hi hf =>
      hfixed pre i f (fun x hx => (hset x).2 (hpre x hx)) ((hset i).2 hi) hf) tr2 h2
  have hsame : ∀ (ca cb : List Int) (tra trb : List (Eval Split)),
      (∀ i, i ∈ ca → i ∈ cb) → trb.map Eval.column = cb →
      (∀ e ∈ tra, e.column ∈ ca ∧ ∃ f, index? fm.Data e.column = some f ∧
        e.inerImp = BestSplitter.decreaseAfter m fm target cases allocs [] f) →
      (∀ e ∈ trb, e.column ∈ cb ∧ ∃ f, index? fm.Data e.column = some f ∧
        e.inerImp = BestSplitter.decreaseAfter m fm target cases allocs [] f) →
      ∀ ea ∈ tra, ∃ eb ∈ trb, eb.inerImp = ea.inerImp := by
    intro ca cb tra trb hsub hcb hda hdb ea hea
    obtain ⟨hca, fa, hfa, hia⟩ := hda ea hea
    have hmem : ea.column ∈ trb.map Eval.column := by rw [hcb]; exact hsub _ hca
    obtain ⟨eb, heb, hcol⟩ := List.mem_map.1 hmem
    obtain ⟨_, fb, hfb, hib⟩ := hdb eb heb
    rw [hcol, hfa] at hfb
    simp only [Option.some.injEq] at hfb
    subst hfb
    exact ⟨eb, heb, by rw [hia, hib]⟩
  have h12 := hsame c1 c2 tr1 tr2 (fun i => (hset i).1) hc2 hd1 hd2
  have h21 := hsame c2 c1 tr2 tr1 (fun i => (hset i).2) hc1 hd2 hd1
  rcases BestSplitter.result_char m fm target cases c1 allocs tr1 h1 with
    ⟨hall1, hres1⟩ | ⟨j1, e1, f1, hj1, _, hres1, hgt1, _, hmax1⟩
  · rcases BestSplitter.result_char m fm target cases c2 allocs tr2 h2 with
      ⟨_, hres2⟩ | ⟨j2, e2, f2, hj2, _, _, hgt2, _, _⟩
    · exact ⟨none, none, minImp, hres1, hres2, Iff.rfl⟩
    · obtain ⟨e, he, heq⟩ := h21 e2 (List.getElem?_mem hj2)
      have := hall1 e he
      rw [heq, hgt2] at this
      exact absurd this (by simp)
  · rcases BestSplitter.result_char m fm target cases c2 allocs tr2 h2 with
      ⟨hall2, _⟩ | ⟨j2, e2, f2, hj2, _, hres2, hgt2, _, hmax2⟩
    · obtain ⟨e, he, heq⟩ := h12 e1 (List.getElem?_mem hj1)
      have := hall2 e he
      rw [heq, hgt1] at this
      exact absurd this (by simp)
    · have hle1 : e2.inerImp.gt e1.inerImp = false := by
        obtain ⟨e, he, heq⟩ := h21 e2 (List.getElem?_mem hj2)
        rw [← heq]
        exact hmax1 e he
      have hle2 : e1.inerImp.gt e2.inerImp = false := by
        obtain ⟨e, he, heq⟩ := h12 e1 (List.getElem?_mem hj1)
        rw [← heq]
        exact hmax2 e he
      have heq : e1.inerImp = e2.inerImp :=
        Float64.eq_of_not_gt (Float64.ne_nan_of_gt hgt1).1 (Float64.ne_nan_of_gt hgt2).1
          hle2 hle1
      refine ⟨_, _, e1.inerImp, hres1, by rw [heq]; exact hres2, ?_⟩
      simp

/-- BestSplit calls that write nothing leave the memory as it was. -/
lemma BestSplitter.memAfter_of_no_write {Feat Tgt R Split Splitter : Type}
    (m : SearchMethods Feat Tgt R Split Splitter) (fm : FeatureMatrix Feat)
    (target : Tgt) (p : Float64)
    (hw : ∀ (f : Feat) (cs : List Int) (a : BestSplitAllocs R),
      (m.BestSplit f target cs p a).2 = (cs, a)) :
    ∀ (pre : List Int) (mem : List Int × BestSplitAllocs R),
      BestSplitter.memAfter m fm target p pre mem = mem := by
  intro pre
  induction pre with
  | nil => intro mem; rfl
  | cons i rest ih =>
    intro mem
    cases hf : index? fm.Data i with
    | none =>
      have : BestSplitter.memAfter m fm target p (i :: rest) mem
          = BestSplitter.memAfter m fm target p rest mem := by
        simp [BestSplitter.memAfter, hf]
      rw [this, ih]
    | some f => rw [BestSplitter.memAfter_cons m fm target p i rest f mem hf, hw, ih]

/-- Evaluation of C20 with a BestSplit whose decrease depends on the case set
(the number of cases its threshold sends left): the candidates 0 and 3 in two
orders, one with a repetition; both columns report 1 and supply different
splitters. -/
theorem BestSplitter_candidate_set_witness :
    (∀ i ∈ ([0, 3] : List Int), 0 ≤ i ∧ i < exampleMatrix.Data.length) ∧
    (∀ i : Int, i ∈ ([0, 3] : List Int) ↔ i ∈ ([3, 0, 3] : List Int)) ∧
    BestSplitter exampleCounting exampleMatrix () [0, 1, 2] [0, 3]
      { Counter := [], Rest := () } = some (some 0, Float64.fin 1) ∧
    BestSplitter exampleCounting exampleMatrix () [0, 1, 2] [3, 0, 3]
      { Counter := [], Rest := () } = some (some 1, Float64.fin 1) ∧
    BestSplitter exampleCounting exampleMatrix () [0, 1, 2] [1]
      { Counter := [], Rest := () } = some (some 2, Float64.fin 2) ∧
    BestSplitter exampleCounting exampleMatrix () [0] [1]
      { Counter := [], Rest := () } = some (some 2, Float64.fin 1) ∧
    ∃ (s1 s2 : Option Int) (d : Float64),
      BestSplitter exampleCounting exampleMatrix () [0, 1, 2] [0, 3]
        { Counter := [], Rest := () } = some (s1, d) ∧
      BestSplitter exampleCounting exampleMatrix () [0, 1, 2] [3, 0, 3]
        { Counter := [], Rest := () } = some (s2, d) ∧
      (s1 = none ↔ s2 = none) :=
  have hset : ∀ i : Int, i ∈ ([0, 3] : List Int) ↔ i ∈ ([3, 0, 3] : List Int) := by
    intro i
    simp only [List.mem_cons, List.mem_nil_iff, or_false]
    omega
  ⟨by decide, hset, by decide, by decide, by decide, by decide,
    BestSplitter_candidate_set exampleCounting exampleMatrix () [0, 1, 2] [0, 3]
      [3, 0, 3] { Counter := [], Rest := () } (by decide) hset
      (fun pre i f _ _ _ => by
        simp only [BestSplitter.decreaseAfter]
        rw [BestSplitter.memAfter_of_no_write exampleCounting exampleMatrix () _
          (fun _ _ _ => rfl) pre]
        rfl)⟩

/-! ## AddContrasts: the sources of the copies -/

/-- C19: whenever AddContrasts(n) returns, every column it has appended is the
ShuffledCopy of a column at an index below `k`, the column count at the start of
the call: the index drawn is in range and a copy appended earlier in the call is
never a source. For `n ≥ 1` on a matrix with `k ≥ 1` columns and a name index
that is not nil the call does return. On a matrix without columns and `n ≥ 1` it
does not (`rand.Intn(0)` panics), and for `n ≤ 0` the matrix is left as it is. -/
theorem AddContrasts_sources {Feat : Type} (m : ColumnMethods Feat)
    (fm : FeatureMatrix Feat) (n : Int) (g : Rand) :
    (∀ (fm2 : FeatureMatrix Feat) (g2 : Rand), AddContrasts m fm n g = some (fm2, g2) →
      ∃ fakes : List Feat,
        fm2.Data = fm.Data ++ fakes ∧ fakes.length = n.toNat ∧
        ∀ fake ∈ fakes, ∃ (r : Nat) (orig : Feat) (g1 : Rand),
          r < fm.Data.length ∧ fm.Data[r]? = some orig ∧
          fake = (m.ShuffledCopy orig g1).1) ∧
    (1 ≤ n → 1 ≤ fm.Data.length → fm.Map ≠ none →
      ∃ (fm2 : FeatureMatrix Feat) (g2 : Rand), AddContrasts m fm n g = some (fm2, g2)) ∧
    (1 ≤ n → fm.Data.length = 0 → AddContrasts m fm n g = none) ∧
    (n ≤ 0 → AddContrasts m fm n g = some (fm, g)) := by
  refine ⟨?_, ?_, ?_, ?_⟩
  · intro fm2 g2 h
    obtain ⟨fakes, hdata, hlen, _, _, hsrc⟩ :=
      AddContrasts_loop_spec m fm.Data n.toNat fm g (fm2, g2) h (List.prefix_refl _)
    exact ⟨fakes, hdata, hlen, hsrc⟩
  · intro _ hk hmap
    obtain ⟨out, hout⟩ :=
      AddContrasts_loop_isSome m (fm.Data.length : Int) n.toNat fm g (by omega) le_rfl hmap
    exact ⟨out.1, out.2, hout⟩
  · intro hn hk
    obtain ⟨k, hk2⟩ := Nat.exists_eq_succ_of_ne_zero (show n.toNat ≠ 0 by omega)
    simp [AddContrasts, hk2, AddContrasts.loop, hk, Rand.Intn]
  · intro hn
    have : n.toNat = 0 := by omega
    simp [AddContrasts, this, AddContrasts.loop]

/-- Evaluation of C19: two copies of the only column of the dense example, no
copy on a matrix without columns, and nothing done for `n = 0`. -/
theorem AddContrasts_sources_witness :
    (1 : Int) ≤ 2 ∧ 1 ≤ exampleDense.Data.length ∧ exampleDense.Map ≠ none ∧
    (∃ (fm2 : FeatureMatrix Feature) (g2 : Rand),
      AddContrasts denseColumns exampleDense 2 exampleRand = some (fm2, g2) ∧
      ∃ fakes : List Feature,
        fm2.Data = exampleDense.Data ++ fakes ∧ fakes.length = (2 : Int).toNat ∧
        ∀ fake ∈ fakes, ∃ (r : Nat) (orig : Feature) (g1 : Rand),
          r < exampleDense.Data.length ∧ exampleDense.Data[r]? = some orig ∧
          fake = (denseColumns.ShuffledCopy orig g1).1) ∧
    AddContrasts denseColumns
      { Data := [], Map := some (fun _ => none), CaseLabels := [] } 1 exampleRand = none ∧
    AddContrasts denseColumns exampleDense 0 exampleRand = some (exampleDense, exampleRand) :=
  ⟨by decide, by decide, by simp [exampleDense],
    ((AddContrasts_sources denseColumns exampleDense 2 exampleRand).2.1
        (by decide) (by decide) (by simp [exampleDense])).imp
      (fun fm2 h => h.imp (fun g2 h2 =>
        ⟨h2, (AddContrasts_sources denseColumns exampleDense 2 exampleRand).1 fm2 g2 h2⟩)),
    (AddContrasts_sources denseColumns
      { Data := [], Map := some (fun _ => none), CaseLabels := [] } 1 exampleRand).2.2.1
      (by decide) rfl,
    (AddContrasts_sources denseColumns exampleDense 0 exampleRand).2.2.2 (by decide)⟩

/-! ## ImputeMissing -/

lemma fillMissing_cleared {α : Type} (v : α) :
    ∀ (xs : List α) (mask : List Bool),
      fillMissing v xs (mask.map (fun _ => false)) = xs := by
  intro xs
  induction xs with
  | nil => intro mask; cases mask <;> simp [fillMissing]
  | cons x xs ih =>
    intro mask
    cases mask with
    | nil => simp [fillMissing]
    | cons b bs =>
      show fillMissing v (x :: xs) (false :: bs.map (fun _ => false)) = x :: xs
      simp only [fillMissing]
      rw [ih]
      simp

/-- The modelled imputation of a column changes nothing when applied a second
time: after the first call no value is marked missing. -/
lemma Feature.ImputeMissing_idem (stats : ImputeStats) (f : Feature) :
    (f.ImputeMissing stats).ImputeMissing stats = f.ImputeMissing stats := by
  cases f with
  | num f =>
    simp only [Feature.ImputeMissing]
    rw [fillMissing_cleared]
    simp
  | cat f =>
    simp only [Feature.ImputeMissing]
    rw [fillMissing_cleared]
    simp

lemma Feature.ImputeMissing_GetName (stats : ImputeStats) (f : Feature) :
    (f.ImputeMissing stats).GetName = f.GetName := by
  cases f <;> rfl

/-- The matrix-level loop is idempotent as soon as the method of the columns is. -/
lemma ImputeMissing_idem_of {Feat : Type} (impute : Feat → Feat)
    (h : ∀ f, impute (impute f) = impute f) (fm : FeatureMatrix Feat) :
    ImputeMissing impute (ImputeMissing impute fm) = ImputeMissing impute fm := by
  simp [ImputeMissing, h]

/-- C16: FeatureMatrix.ImputeMissing applies the imputation of the columns to
every column, at its position, and leaves the number and the order (the names) of
the columns, the name index and the case labels as they were; calling it twice
gives the same matrix, values and missing masks included, as calling it once. -/
theorem ImputeMissing_idempotent (stats : ImputeStats) (fm : FeatureMatrix Feature) :
    ImputeMissing (Feature.ImputeMissing stats)
        (ImputeMissing (Feature.ImputeMissing stats) fm)
      = ImputeMissing (Feature.ImputeMissing stats) fm ∧
    (ImputeMissing (Feature.ImputeMissing stats) fm).Data
      = fm.Data.map (Feature.ImputeMissing stats) ∧
    (ImputeMissing (Feature.ImputeMissing stats) fm).Data.length = fm.Data.length ∧
    (ImputeMissing (Feature.ImputeMissing stats) fm).Data.map Feature.GetName
      = fm.Data.map Feature.GetName ∧
    (ImputeMissing (Feature.ImputeMissing stats) fm).Map = fm.Map ∧
    (ImputeMissing (Feature.ImputeMissing stats) fm).CaseLabels = fm.CaseLabels := by
  refine ⟨ImputeMissing_idem_of _ (Feature.ImputeMissing_idem stats) fm, rfl,
    by simp [ImputeMissing], ?_, rfl, rfl⟩
  simp only [ImputeMissing, List.map_map]
  apply List.map_congr_left
  intro f _
  exact Feature.ImputeMissing_GetName stats f

/-! ## BestSplitter and the matrix -/

lemma set_getElem?_same {α : Type} :
    ∀ (xs : List α) (n : Nat) (x : α), xs[n]? = some x → xs.set n x = xs := by
  intro xs
  induction xs with
  | nil => intro n x h; simp at h
  | cons y ys ih =>
    intro n x h
    cases n with
    | zero =>
      simp only [List.getElem?_cons_zero, Option.some.injEq] at h
      subst h
      rfl
    | succ n =>
      simp only [List.getElem?_cons_succ] at h
      simp only [List.set_cons_succ, ih n x h]

lemma index?_toNat {α : Type} {xs : List α} {i : Int} {f : α}
    (h : index? xs i = some f) : 0 ≤ i ∧ xs[i.toNat]? = some f := by
  unfold index? at h
  split at h
  · rename_i h0
    exact ⟨h0, h⟩
  · exact absurd h (by simp)

/-- Writing to slot `i` the column a method of that column left keeps the length
of the sequence, every other slot, and whatever the method keeps of its column. -/
lemma set_slot_frame {Feat α : Type} (obs : Feat → α) (xs : List Feat) (i : Int)
    (f f2 : Feat) (hf : index? xs i = some f) (hobs : obs f2 = obs f) :
    (xs.set i.toNat f2).length = xs.length ∧
    (xs.set i.toNat f2).map obs = xs.map obs ∧
    ∀ k : Nat, (k : Int) ≠ i → (xs.set i.toNat f2)[k]? = xs[k]? := by
  obtain ⟨h0, hget⟩ := index?_toNat hf
  refine ⟨List.length_set _ _ _, ?_, ?_⟩
  · rw [List.map_set, hobs]
    exact set_getElem?_same _ _ _ (by simp [hget])
  · intro k hk
    have : i.toNat ≠ k := by omega
    exact List.getElem?_set_ne this

/-- The loop of BestSplitter, with the matrix in memory, leaves the length of the
column sequence, the name index, the case labels and every column that is not a
candidate as they were, and keeps of every column what the columns' methods keep;
the best-column pointer, when it moves, points to a candidate. -/
lemma BestSplitter.loopOnMatrix_frame {Feat Tgt R Split Splitter α : Type}
    (m : ColumnWritingMethods Feat Tgt R Split Splitter)
    (target : Tgt) (p : Float64) (obs : Feat → α)
    (hobs : ∀ (f : Feat) (cs : List Int) (a : BestSplitAllocs R),
      obs (m.BestSplit f target cs p a).2 = obs f) :
    ∀ (cands : List Int) (fm : FeatureMatrix Feat) (st : LoopState R Split)
      (out : FeatureMatrix Feat × LoopState R Split),
      BestSplitter.loopOnMatrix m target p cands fm st = some out →
      out.1.Data.length = fm.Data.length ∧
      out.1.Data.map obs = fm.Data.map obs ∧
      out.1.Map = fm.Map ∧ out.1.CaseLabels = fm.CaseLabels ∧
      (∀ k : Nat, (k : Int) ∉ cands → out.1.Data[k]? = fm.Data[k]?) ∧
      (out.2.bestF = st.bestF ∨ ∃ i ∈ cands, out.2.bestF = some i) := by
  intro cands
  induction cands with
  | nil =>
    intro fm st out h
    simp only [BestSplitter.loopOnMatrix, Option.some.injEq] at h
    subst h
    exact ⟨rfl, rfl, rfl, rfl, fun _ _ => rfl, Or.inl rfl⟩
  | cons i rest ih =>
    intro fm st out h
    simp only [BestSplitter.loopOnMatrix] at h
    split at h
    · exact absurd h (by simp)
    rename_i f hf
    obtain ⟨hlen, hmap, hother⟩ := set_slot_frame obs fm.Data i f
      (m.BestSplit f target st.cases p st.allocs).2 hf (hobs f _ _)
    have fin : ∀ st1 : LoopState R Split,
        BestSplitter.loopOnMatrix m target p rest
          { fm with Data := fm.Data.set i.toNat (m.BestSplit f target st.cases p st.allocs).2 }
          st1 = some out →
        (st1.bestF = st.bestF ∨ st1.bestF = some i) →
        out.1.Data.length = fm.Data.length ∧
        out.1.Data.map obs = fm.Data.map obs ∧
        out.1.Map = fm.Map ∧ out.1.CaseLabels = fm.CaseLabels ∧
        (∀ k : Nat, (k : Int) ∉ i :: rest → out.1.Data[k]? = fm.Data[k]?) ∧
        (out.2.bestF = st.bestF ∨ ∃ i2 ∈ i :: rest, out.2.bestF = some i2) := by
      intro st1 h1 hb
      obtain ⟨a1, a2, a3, a4, a5, a6⟩ := ih _ st1 out h1
      refine ⟨a1.trans hlen, a2.trans hmap, a3, a4, ?_, ?_⟩
      · intro k hk
        rw [a5 k (fun hmem => hk (List.mem_cons_of_mem _ hmem))]
        exact hother k (fun heq => hk (by rw [heq]; exact List.mem_cons_self _ _))
      · rcases a6 with a6 | ⟨i2, hi2, a6⟩
        · rcases hb with hb | hb
          · exact Or.inl (a6.trans hb)
          · exact Or.inr ⟨i, List.mem_cons_self _ _, a6.trans hb⟩
        · exact Or.inr ⟨i2, List.mem_cons_of_mem _ hi2, a6⟩
    split at h
    · exact fin _ h (Or.inr rfl)
    · exact fin _ h (Or.inl rfl)

/-- C18: BestSplitter is read-only on the dataset. With the matrix in memory and
methods that may write to the column they are called on, the matrix after the
call has the same number of columns, the same name index and the same case
labels; the columns keep their positions (whatever the column methods keep of a
column, `obs`, for instance its name, is the same at every position) and every
column that is not a candidate is untouched. -/
theorem BestSplitter_read_only {Feat Tgt R Split Splitter α : Type}
    (m : ColumnWritingMethods Feat Tgt R Split Splitter) (fm : FeatureMatrix Feat)
    (target : Tgt) (cases : List Int) (candidates : List Int)
    (allocs : BestSplitAllocs R) (obs : Feat → α)
    (hobs1 : ∀ (f : Feat) (cs : List Int) (p : Float64) (a : BestSplitAllocs R),
      obs (m.BestSplit f target cs p a).2 = obs f)
    (hobs2 : ∀ (f : Feat) (split : Option Split), obs (m.DecodeSplit f split).2 = obs f)
    (res : Option Splitter × Float64) (fm2 : FeatureMatrix Feat)
    (h : BestSplitter.onMatrix m fm target cases candidates allocs = some (res, fm2)) :
    fm2.Data.length = fm.Data.length ∧
    fm2.Data.map obs = fm.Data.map obs ∧
    fm2.Map = fm.Map ∧ fm2.CaseLabels = fm.CaseLabels ∧
    ∀ k : Nat, (k : Int) ∉ candidates → fm2.Data[k]? = fm.Data[k]? := by
  simp only [BestSplitter.onMatrix] at h
  split at h
  · exact absurd h (by simp)
  rename_i fm1 st hloop
  obtain ⟨a1, a2, a3, a4, a5, a6⟩ := BestSplitter.loopOnMatrix_frame m target _ obs
    (fun f cs a => hobs1 f cs _ a) candidates fm _ (fm1, st) hloop
  split at h
  · split at h
    · exact absurd h (by simp)
    rename_i i hbest
    split at h
    · exact absurd h (by simp)
    rename_i f hf
    simp only [Option.some.injEq, Prod.mk.injEq] at h
    obtain ⟨_, hfm⟩ := h
    subst hfm
    obtain ⟨hlen, hmap, hother⟩ := set_slot_frame obs fm1.Data i f
      (m.DecodeSplit f st.bestSplit).2 hf (hobs2 f _)
    have hi : i ∈ candidates := by
      rcases a6 with a6 | ⟨i2, hi2, a6⟩
      · simp only [BestSplitter.init] at a6
        rw [hbest] at a6
        exact absurd a6 (by simp)
      · simp only at a6
        rw [hbest] at a6
        simp only [Option.some.injEq] at a6
        rw [a6]
        exact hi2
    refine ⟨hlen.trans a1, hmap.trans a2, a3, a4, ?_⟩
    intro k hk
    rw [← a5 k hk]
    exact hother k (fun heq => hk (by rw [heq]; exact hi))
  · simp only [Option.some.injEq, Prod.mk.injEq] at h
    obtain ⟨_, hfm⟩ := h
    subst hfm
    exact ⟨a1, a2, a3, a4, a5⟩

/-- Evaluation of C18: BestSplit rewrites the values of the candidate columns 1
and 3 and keeps their thresholds; column 2, not a candidate, is untouched. -/
theorem BestSplitter_read_only_witness :
    ∃ (res : Option Int × Float64) (fm2 : FeatureMatrix ExampleColumn),
      BestSplitter.onMatrix exampleWriting exampleMatrix () [0, 1, 2] [1, 3]
        { Counter := [], Rest := () } = some (res, fm2) ∧
      res = (some 2, Float64.fin 3) ∧
      fm2.Data.map ExampleColumn.values = [[0, 5, 7], [0, 5, 7], [4, 4, 4], [0, 5, 7]] ∧
      fm2.Data.length = exampleMatrix.Data.length ∧
      fm2.Data.map ExampleColumn.threshold
        = exampleMatrix.Data.map ExampleColumn.threshold ∧
      fm2.Map = exampleMatrix.Map ∧ fm2.CaseLabels = exampleMatrix.CaseLabels ∧
      ∀ k : Nat, (k : Int) ∉ ([1, 3] : List Int) → fm2.Data[k]? = exampleMatrix.Data[k]? :=
  ⟨_, _, rfl, rfl, rfl,
    BestSplitter_read_only exampleWriting exampleMatrix () [0, 1, 2] [1, 3]
      { Counter := [], Rest := () } ExampleColumn.threshold
      (fun _ _ _ _ => rfl) (fun _ _ => rfl) _ _ rfl⟩

/-- With methods that do not write to their column, the loop with the matrix in
memory is the loop of BestSplitter and the matrix stays as it is. -/
lemma BestSplitter.loopOnMatrix_eq_loop {Feat Tgt R Split Splitter : Type}
    (m : ColumnWritingMethods Feat Tgt R Split Splitter) (fm : FeatureMatrix Feat)
    (target : Tgt) (p : Float64)
    (hw : ∀ (f : Feat) (cs : List Int) (a : BestSplitAllocs R),
      (m.BestSplit f target cs p a).2 = f) :
    ∀ (cands : List Int) (st : LoopState R Split),
      BestSplitter.loopOnMatrix m target p cands fm st
        = (BestSplitter.loop m.forget fm target p cands st).map (fun st2 => (fm, st2)) := by
  intro cands
  induction cands with
  | nil => intro st; rfl
  | cons i rest ih =>
    intro st
    simp only [BestSplitter.loopOnMatrix, BestSplitter.loop]
    cases hf : index? fm.Data i with
    | none => rfl
    | some f =>
      have hset : fm.Data.set i.toNat (m.BestSplit f target st.cases p st.allocs).2
          = fm.Data := by
        rw [hw]
        exact set_getElem?_same _ _ _ (index?_toNat hf).2
      simp only [hset]
      split
      · rename_i hc
        have hc2 : (((m.forget.BestSplit f target st.cases p st.allocs).1.2.gt minImp &&
            (m.forget.BestSplit f target st.cases p st.allocs).1.2.gt st.impurityDecrease)
              = true) := hc
        rw [if_pos hc2]
        exact ih _
      · rename_i hc
        have hc2 : ¬ (((m.forget.BestSplit f target st.cases p st.allocs).1.2.gt minImp &&
            (m.forget.BestSplit f target st.cases p st.allocs).1.2.gt st.impurityDecrease)
              = true) := hc
        rw [if_neg hc2]
        exact ih _

/-- With methods that do not write to their column, BestSplitter with the matrix
in memory returns what BestSplitter returns, and the matrix unchanged. -/
lemma BestSplitter.onMatrix_eq {Feat Tgt R Split Splitter : Type}
    (m : ColumnWritingMethods Feat Tgt R Split Splitter) (fm : FeatureMatrix Feat)
    (target : Tgt) (cases : List Int) (candidates : List Int)
    (allocs : BestSplitAllocs R)
    (hw1 : ∀ (f : Feat) (cs : List Int) (p : Float64) (a : BestSplitAllocs R),
      (m.BestSplit f target cs p a).2 = f)
    (hw2 : ∀ (f : Feat) (split : Option Split), (m.DecodeSplit f split).2 = f) :
    BestSplitter.onMatrix m fm target cases candidates allocs
      = (BestSplitter m.forget fm target cases candidates allocs).map
          (fun r => (r, fm)) := by
  simp only [BestSplitter.onMatrix, BestSplitter,
    BestSplitter.loopOnMatrix_eq_loop m fm target _ (fun f cs a => hw1 f cs _ a)]
  cases hl : BestSplitter.loop m.forget fm target
      (BestSplitter.init m.forget target cases allocs : Float64 × LoopState R Split).1
      candidates (BestSplitter.init m.forget target cases allocs).2 with
  | none => rfl
  | some st =>
    simp only [Option.map_some']
    split
    · cases hb : st.bestF with
      | none => rfl
      | some i =>
        simp only
        cases hf : index? fm.Data i with
        | none => rfl
        | some f =>
          simp only [Option.map_some', Option.some.injEq, Prod.mk.injEq, true_and]
          refine ⟨⟨rfl, trivial⟩, ?_⟩
          rw [hw2, set_getElem?_same _ _ _ (index?_toNat hf).2]
    · rfl

end CloudForest
